import Mathlib

/-!
Verification of the bitradius/memcache-helper TTL cache wrapper.

The repository wraps the external node-cache store behind a class whose
private `stringify` and `unstringify` methods delegate to JSON
serialization (JSON.stringify / JSON.parse).  Values of the supported
shapes (null, booleans, numbers, strings, ordered sequences and
string-keyed mappings) are modelled by the inductive type `Value`;
numbers are modelled as arbitrary-precision integers printed in decimal
notation, which agrees with the JavaScript printing of integral numbers.
-/

namespace Memcache

/-- Supported value shapes (spec section 4.1): primitives, ordered
sequences, mappings with string keys, and nested combinations thereof. -/
inductive Value where
  | null : Value
  | bool (b : Bool) : Value
  | int (n : Int) : Value
  | str (s : String) : Value
  | arr (xs : List Value) : Value
  | obj (fields : List (String × Value)) : Value

/-- Decimal digit character for a digit value below ten. -/
def digitChar (n : Nat) : Char := Char.ofNat (48 + n)

/-- Lowercase hexadecimal digit character for a digit value below sixteen. -/
def hexDigitChar (n : Nat) : Char :=
  if n < 10 then Char.ofNat (48 + n) else Char.ofNat (87 + n)

/-- Fuel-indexed digit printing; the fuel only bounds the number of
digits and is always supplied large enough by natChars. -/
def natCharsAux : Nat → Nat → List Char
  | 0, _ => []
  | fuel + 1, n =>
    if n < 10 then [digitChar n]
    else natCharsAux fuel (n / 10) ++ [digitChar (n % 10)]

/-- Decimal digit characters of a natural number, most significant first,
as produced by the JavaScript printing of a nonnegative integral number. -/
def natChars (n : Nat) : List Char := natCharsAux (n + 1) n

/-- Decimal printing of an integer, with a leading minus sign when
negative, as produced by JSON.stringify on an integral number. -/
def intChars (n : Int) : List Char :=
  if n < 0 then '-' :: natChars (-n).toNat else natChars n.toNat

/-- Escaping of one character inside a JSON string literal, following
JSON.stringify: quote and backslash get two-character escapes, the five
named control characters get their short escapes, the remaining control
characters get a four-digit lowercase hexadecimal escape, and every
other character is emitted literally. -/
def escapeChar (c : Char) : List Char :=
  if c = '"' then ['\\', '"']
  else if c = '\\' then ['\\', '\\']
  else if c = '\x08' then ['\\', 'b']
  else if c = '\x09' then ['\\', 't']
  else if c = '\x0a' then ['\\', 'n']
  else if c = '\x0c' then ['\\', 'f']
  else if c = '\x0d' then ['\\', 'r']
  else if c.toNat < 32 then
    ['\\', 'u', '0', '0', hexDigitChar (c.toNat / 16), hexDigitChar (c.toNat % 16)]
  else [c]

/-- Escaping of a character sequence inside a JSON string literal. -/
def escapeChars : List Char → List Char
  | [] => []
  | c :: cs => escapeChar c ++ escapeChars cs

/-- JSON string literal for a string: opening quote, escaped characters,
closing quote. -/
def serStringChars (s : String) : List Char :=
  '"' :: (escapeChars s.toList ++ ['"'])

mutual

/-- Character sequence produced by JSON.stringify on a supported value. -/
def serValue : Value → List Char
  | .null => "null".toList
  | .bool true => "true".toList
  | .bool false => "false".toList
  | .int n => intChars n
  | .str s => serStringChars s
  | .arr xs => '[' :: (serElems xs ++ [']'])
  | .obj fs => '{' :: (serFields fs ++ ['}'])

/-- Comma-separated serialization of array elements. -/
def serElems : List Value → List Char
  | [] => []
  | [x] => serValue x
  | x :: xs => serValue x ++ ',' :: serElems xs

/-- Comma-separated serialization of object fields, each a JSON string
key, a colon, and the serialized value, in insertion order. -/
def serFields : List (String × Value) → List Char
  | [] => []
  | [(k, v)] => serStringChars k ++ ':' :: serValue v
  | (k, v) :: fs => serStringChars k ++ ':' :: (serValue v ++ ',' :: serFields fs)

end

/-- String produced by JSON.stringify on a supported value. -/
def serStr (v : Value) : String := String.mk (serValue v)

/-- Numeric value of a decimal digit character. -/
def digitVal (c : Char) : Nat := c.toNat - 48

/-- Decimal digit test on a character. -/
def isDigitChar (c : Char) : Bool := 48 ≤ c.toNat && c.toNat ≤ 57

/-- Numeric value of a hexadecimal digit character, when it is one. -/
def hexVal (c : Char) : Option Nat :=
  if 48 ≤ c.toNat ∧ c.toNat ≤ 57 then some (c.toNat - 48)
  else if 97 ≤ c.toNat ∧ c.toNat ≤ 102 then some (c.toNat - 87)
  else if 65 ≤ c.toNat ∧ c.toNat ≤ 70 then some (c.toNat - 55)
  else none

/-- Natural number denoted by a most-significant-first decimal digit
sequence. -/
def natFromDigits (ds : List Char) : Nat :=
  ds.foldl (fun a c => a * 10 + digitVal c) 0

/-- Resolution of a single-character escape form of a JSON string. -/
def unescapeChar (e : Char) : Option Char :=
  if e = '"' then some '"'
  else if e = '\\' then some '\\'
  else if e = '/' then some '/'
  else if e = 'b' then some '\x08'
  else if e = 't' then some '\x09'
  else if e = 'n' then some '\x0a'
  else if e = 'f' then some '\x0c'
  else if e = 'r' then some '\x0d'
  else none

/-- Value of a four-digit hexadecimal escape, when all four characters
are hexadecimal digits. -/
def hexQuad (h1 h2 h3 h4 : Char) : Option Nat :=
  match hexVal h1, hexVal h2, hexVal h3, hexVal h4 with
  | some a, some b, some c, some d => some (((a * 16 + b) * 16 + c) * 16 + d)
  | _, _, _, _ => none

/-- Reading of the body of a JSON string literal after its opening quote:
consumes characters up to the unescaped closing quote, resolving the
escape forms accepted by JSON.parse.  A four-digit hexadecimal escape
denoting a surrogate code unit is rejected, since the embedding's
characters are unicode scalar values; the serializer only emits such
escapes for control characters.  Unescaped control characters are
rejected, as JSON.parse rejects them. -/
def parseStrChars : List Char → Option (List Char × List Char)
  | [] => none
  | c :: rest =>
    if c = '"' then some ([], rest)
    else if c = '\\' then
      match rest with
      | 'u' :: h1 :: h2 :: h3 :: h4 :: rest3 =>
        (match hexQuad h1 h2 h3 h4 with
         | some n =>
           if 55296 ≤ n ∧ n < 57344 then none
           else (parseStrChars rest3).map fun p => (Char.ofNat n :: p.1, p.2)
         | none => none)
      | e :: rest2 =>
        (match unescapeChar e with
         | some c' => (parseStrChars rest2).map fun p => (c' :: p.1, p.2)
         | none => none)
      | [] => none
    else if c.toNat < 32 then none
    else (parseStrChars rest).map fun p => (c :: p.1, p.2)

/-- Reading of a JSON integer token: an optional minus sign followed by a
maximal nonempty run of decimal digits.  The serializer only emits
integral numbers, so fractions and exponents are not modelled. -/
def parseNum (cs : List Char) : Option (Int × List Char) :=
  match cs with
  | '-' :: rest =>
    match rest.span isDigitChar with
    | (ds, rest2) => if ds.isEmpty then none else some (-(natFromDigits ds : Int), rest2)
  | _ =>
    match cs.span isDigitChar with
    | (ds, rest2) => if ds.isEmpty then none else some ((natFromDigits ds : Int), rest2)

mutual

/-- Fuel-indexed recursive-descent reading of one JSON value, modelling
JSON.parse on the fragment emitted by the serializer (no interior
whitespace, integral numbers).  Exhausted fuel yields none; the
round-trip theorems supply sufficient fuel. -/
def parseV : Nat → List Char → Option (Value × List Char)
  | 0, _ => none
  | fuel + 1, cs =>
    match cs with
    | 'n' :: 'u' :: 'l' :: 'l' :: r => some (.null, r)
    | 't' :: 'r' :: 'u' :: 'e' :: r => some (.bool true, r)
    | 'f' :: 'a' :: 'l' :: 's' :: 'e' :: r => some (.bool false, r)
    | '"' :: r => (parseStrChars r).map fun p => (.str (String.mk p.1), p.2)
    | '[' :: r =>
      match r with
      | ']' :: r2 => some (.arr [], r2)
      | _ => (parseElems fuel r).map fun p => (.arr p.1, p.2)
    | '{' :: r =>
      match r with
      | '}' :: r2 => some (.obj [], r2)
      | _ => (parseFields fuel r).map fun p => (.obj p.1, p.2)
    | _ => (parseNum cs).map fun p => (.int p.1, p.2)

/-- Reading of one or more comma-separated array elements up to the
closing bracket. -/
def parseElems : Nat → List Char → Option (List Value × List Char)
  | 0, _ => none
  | fuel + 1, cs =>
    match parseV fuel cs with
    | none => none
    | some (v, r) =>
      match r with
      | ',' :: r2 => (parseElems fuel r2).map fun p => (v :: p.1, p.2)
      | ']' :: r2 => some ([v], r2)
      | _ => none

/-- Reading of one or more comma-separated object fields up to the
closing brace. -/
def parseFields : Nat → List Char → Option (List (String × Value) × List Char)
  | 0, _ => none
  | fuel + 1, cs =>
    match cs with
    | '"' :: r =>
      match parseStrChars r with
      | none => none
      | some (kcs, r2) =>
        match r2 with
        | ':' :: r3 =>
          match parseV fuel r3 with
          | none => none
          | some (v, r4) =>
            match r4 with
            | ',' :: r5 => (parseFields fuel r5).map fun p => ((String.mk kcs, v) :: p.1, p.2)
            | '}' :: r5 => some ([(String.mk kcs, v)], r5)
            | _ => none
        | _ => none
    | _ => none

end

/-- Model of JSON.parse as used by the repository's private unstringify:
reads one value and requires the whole input to be consumed; none models
a thrown SyntaxError. -/
def jsonParse (s : String) : Option Value :=
  match parseV (s.length + 1) s.toList with
  | some (v, []) => some v
  | _ => none

/-- Boundary condition for greedy number reading: the following input
does not begin with a decimal digit.  Every character the serializer can
emit after a number (a comma, a closing bracket or brace, or nothing)
satisfies it. -/
def numBoundary (cs : List Char) : Prop :=
  ∀ c, cs.head? = some c → isDigitChar c = false

/-- JavaScript values as passed to the cache API: a supported value, the
undefined value (on which JSON.stringify yields no token), or a BigInt
(on which JSON.stringify throws a TypeError). -/
inductive JsVal where
  | val (v : Value) : JsVal
  | undef : JsVal
  | bigint (n : Int) : JsVal

/-- Models the private stringify method (part_001 lines 151 to 153),
which returns JSON.stringify of its argument; ok none models the
undefined result, error models a thrown TypeError. -/
def stringify : JsVal → Except Unit (Option String)
  | .val v => .ok (some (serStr v))
  | .undef => .ok none
  | .bigint _ => .error ()

/-- Models the private unstringify method (part_001 lines 169 to 171),
which returns JSON.parse of its argument; none models a thrown
SyntaxError. -/
def unstringify (s : String) : Option Value := jsonParse s

/-- Stored entry: the value token (none when JSON.stringify produced no
token for the written value) and the absolute expiry timestamp (none
meaning the entry never expires). -/
structure CacheEntry where
  token : Option String
  expiresAt : Option Nat

/-- Modelled from the spec: the cache state, the default ttl handed to
the store at construction and the store itself, a mapping from
canonical key tokens to entries in insertion order (spec section 3).
The node-cache collaborator owning the store is not part of the
repository. -/
structure CacheState where
  m_ttl : Nat
  store : List (String × CacheEntry)

/-- Events re-emitted by the wrapper's constructor listeners (part_001
lines 24 to 29) carrying decoded keys and values. -/
inductive Event where
  | set (key value : Value) : Event
  | expired (key value : Value) : Event
  | del (key value : Value) : Event
  | flush : Event
  | error : Event

/-- Modelled from the spec: an entry is expired when the current time has
reached its absolute expiry (spec section 3); an entry without an
expiry never expires. -/
def CacheEntry.isLive (now : Nat) (e : CacheEntry) : Bool :=
  match e.expiresAt with
  | none => true
  | some t => now < t

/-- Lookup of an encoded key in the store. -/
def lookupStore (k : String) : List (String × CacheEntry) → Option CacheEntry
  | [] => none
  | (k', e) :: rest => if k' = k then some e else lookupStore k rest

/-- Insert-or-overwrite of an encoded key in the store, keeping the
original position of an overwritten key and appending a new one. -/
def replaceStore (k : String) (e : CacheEntry) :
    List (String × CacheEntry) → List (String × CacheEntry)
  | [] => [(k, e)]
  | (k', e') :: rest =>
    if k' = k then (k, e) :: rest else (k', e') :: replaceStore k e rest

/-- Removal of an encoded key from the store. -/
def removeStore (k : String) : List (String × CacheEntry) → List (String × CacheEntry)
  | [] => []
  | (k', e') :: rest => if k' = k then rest else (k', e') :: removeStore k rest

/-- JavaScript property-key coercion: when the encoded key is the
undefined value (JSON.stringify returned no token), its use as a
property key coerces to the text form. -/
def keyString : Option String → String
  | some s => s
  | none => "undefined"

/-- JavaScript truthiness of the token read from the store, as tested by
the wrapper's get and mget guards: undefined and the empty string are
falsy, every other string is truthy. -/
def tokenTruthy : Option String → Bool
  | some s => !s.isEmpty
  | none => false

/-- Decoding done by the constructor's event listeners: unstringify on a
raw key or raw token; JSON.parse applied to an undefined token or to an
unparsable string throws, modelled by error. -/
def decodeTok : Option String → Except Unit Value
  | some s =>
    match unstringify s with
    | some v => .ok v
    | none => .error ()
  | none => .error ()

/-- Modelled from the spec: the store's read of one encoded key, yielding
the entry's value token when the entry is present and live and
undefined otherwise; a lazily expired entry is treated as absent by a
read without being removed, expired events being the sweep's alone
(spec sections 4.2 and 4.5 and the glossary's lazy expiration). -/
def ncGet (st : CacheState) (now : Nat) (k : String) : Option (Option String) :=
  match lookupStore k st.store with
  | some e => if e.isLive now then some e.token else none
  | none => none

/-- Modelled from the spec: the store's write of one encoded key, storing
the token under the key with the default-ttl expiry from now,
overwriting any existing entry, last writer wins (spec section 4.3); a
zero default ttl leaves the entry without an expiry, the store's
documented meaning of a zero ttl. -/
def ncSet (st : CacheState) (now : Nat) (k : String) (tok : Option String) : CacheState :=
  { st with
    store :=
      replaceStore k ⟨tok, if st.m_ttl = 0 then none else some (now + st.m_ttl)⟩ st.store }

/-- Modelled from the spec: resetting a present live entry's expiry to
now plus the given ttl, the store's ttl method used on the wrapper's
set path (part_001 line 148); a zero ttl leaves the entry without an
expiry, and an absent or expired key is left unchanged. -/
def ncSetTtl (st : CacheState) (now : Nat) (k : String) (ttl : Nat) : CacheState :=
  match lookupStore k st.store with
  | some e =>
    if e.isLive now then
      { st with
        store :=
          replaceStore k { e with expiresAt := if ttl = 0 then none else some (now + ttl) }
            st.store }
    else st
  | none => st

/-- Modelled from the spec: the store's deletion of one encoded key
followed by the wrapper's del listener: a present entry is removed and
a del event with the decoded key and value is emitted; a decode failure
in the listener is thrown out of the call with the entry already
removed; an absent key is a no-op with no event (spec section 4.4). -/
def ncDelOne (st : CacheState) (k : String) : CacheState × Except Unit (List Event) :=
  match lookupStore k st.store with
  | some e =>
    let st' := { st with store := removeStore k st.store }
    match decodeTok (some k), decodeTok e.token with
    | .ok kv, .ok vv => (st', .ok [.del kv vv])
    | _, _ => (st', .error ())
  | none => (st, .ok [])

/-- Models the del method (part_001 lines 50 to 52): encode the key and
delete it from the store. -/
def TTLCache.del (st : CacheState) (key : JsVal) : CacheState × Except Unit (List Event) :=
  match stringify key with
  | .error _ => (st, .error ())
  | .ok keyOpt => ncDelOne st (keyString keyOpt)

/-- Encoded key sequence of a bulk call, keys.map(stringify) at part_001
lines 112 and 122: the JavaScript map aborts on the first thrown
encoding error, encoding none of the keys' effects. -/
def mapStringify : List JsVal → Except Unit (List (Option String))
  | [] => .ok []
  | k :: ks =>
    match stringify k with
    | .error e => .error e
    | .ok s =>
      match mapStringify ks with
      | .error e => .error e
      | .ok ss => .ok (s :: ss)

/-- Modelled from the spec: the store's deletion of a sequence of encoded
keys, one after another; a listener decode failure thrown while
emitting one key's del event aborts the remaining deletions. -/
def ncDelMany : CacheState → List (Option String) → CacheState × Except Unit (List Event)
  | st, [] => (st, .ok [])
  | st, k :: ks =>
    match ncDelOne st (keyString k) with
    | (st1, .error e) => (st1, .error e)
    | (st1, .ok evs) =>
      match ncDelMany st1 ks with
      | (st2, .error e) => (st2, .error e)
      | (st2, .ok evs2) => (st2, .ok (evs ++ evs2))

/-- Models the mdel method (part_001 lines 111 to 115): encode every key
with map, then delete the encoded keys through the store. -/
def TTLCache.mdel (st : CacheState) (keys : List JsVal) : CacheState × Except Unit (List Event) :=
  match mapStringify keys with
  | .error e => (st, .error e)
  | .ok fetchKeys => ncDelMany st fetchKeys

/-- Errors the get method can throw: the encoding TypeError from
stringify on the key, the named key-not-found error, or a SyntaxError
from JSON.parse on the stored token. -/
inductive GetErr where
  | encodingError : GetErr
  | keyNotFound : GetErr
  | decodeError : GetErr

/-- Models the get method (part_001 lines 79 to 89): encode the key, read
the value from the store, throw the key-not-found error when the value
is falsy (key absent or expired, or the stored token undefined), else
decode the token.  Reads do not refresh the ttl and do not mutate the
store. -/
def TTLCache.get (st : CacheState) (now : Nat) (key : JsVal) : Except GetErr Value :=
  match stringify key with
  | .error _ => .error .encodingError
  | .ok keyOpt =>
    let value : Option String :=
      match ncGet st now (keyString keyOpt) with
      | none => none
      | some t => t
    if tokenTruthy value then
      match value with
      | some s =>
        match unstringify s with
        | some v => .ok v
        | none => .error .decodeError
      | none => .error .keyNotFound
    else .error .keyNotFound

/-- Models the exists method (part_001 lines 58 to 66), named with a
trailing tick because the source name is a Lean keyword: call get,
mapping success to true and any thrown error to false. -/
def TTLCache.exists' (st : CacheState) (now : Nat) (key : JsVal) : Bool :=
  match TTLCache.get st now key with
  | .ok _ => true
  | .error _ => false

/-- Modelled from the spec: the store's key enumeration at call time, the
encoded keys of all non-expired entries in insertion order (spec
section 4.2). -/
def ncKeys (st : CacheState) (now : Nat) : List String :=
  (st.store.filter fun p => p.2.isLive now).map fun p => p.1

/-- Decoding map over the store's key enumeration (part_001 line 95); a
thrown decode failure aborts the map. -/
def mapDecode : List String → Except Unit (List Value)
  | [] => .ok []
  | s :: ss =>
    match unstringify s with
    | none => .error ()
    | some v =>
      match mapDecode ss with
      | .error e => .error e
      | .ok vs => .ok (v :: vs)

/-- Models the keys method (part_001 lines 94 to 96): the store's keys,
each decoded with unstringify. -/
def TTLCache.keys (st : CacheState) (now : Nat) : Except Unit (List Value) :=
  mapDecode (ncKeys st now)

/-- Modelled from the spec: the store's bulk read of encoded keys, an
object holding, for each requested key present and live, the key and
its stored token, in first-occurrence order with duplicate keys
collapsed (spec section 4.2). -/
def ncMGetAux (st : CacheState) (now : Nat) :
    List String → List (String × Option String) → List (String × Option String)
  | [], acc => acc
  | k :: ks, acc =>
    if (acc.map Prod.fst).contains k then ncMGetAux st now ks acc
    else
      match ncGet st now k with
      | some tok => ncMGetAux st now ks (acc ++ [(k, tok)])
      | none => ncMGetAux st now ks acc

/-- Bulk read of encoded keys starting from an empty result object. -/
def ncMGet (st : CacheState) (now : Nat) (ks : List String) : List (String × Option String) :=
  ncMGetAux st now ks []

/-- Builds the wrapper's result map from the store's bulk-read object
(part_001 lines 126 to 132): for each key whose token is truthy, the
decoded key and decoded value are appended; a decode failure is thrown
out of the loop. -/
def buildPairs : List (String × Option String) → Except Unit (List (Value × Value))
  | [] => .ok []
  | (k, tok) :: rest =>
    if tokenTruthy tok then
      match decodeTok (some k), decodeTok tok with
      | .ok kv, .ok vv =>
        match buildPairs rest with
        | .error e => .error e
        | .ok m => .ok ((kv, vv) :: m)
      | _, _ => .error ()
    else buildPairs rest

/-- Models the mget method (part_001 lines 121 to 135): encode every
requested key with map, bulk-read the store, and decode the hits. -/
def TTLCache.mget (st : CacheState) (now : Nat) (keys : List JsVal) :
    Except Unit (List (Value × Value)) :=
  match mapStringify keys with
  | .error e => .error e
  | .ok fetchKeys => buildPairs (ncMGet st now (fetchKeys.map keyString))

/-- Models the list method (part_001 lines 101 to 105): mget applied to
the decoded keys returned by keys(). -/
def TTLCache.list (st : CacheState) (now : Nat) : Except Unit (List (Value × Value)) :=
  match TTLCache.keys st now with
  | .error e => .error e
  | .ok ks => TTLCache.mget st now (ks.map JsVal.val)

/-- Models the flush method (part_001 lines 71 to 73) together with the
store's flushAll, modelled from the spec: the store is cleared
atomically and a single flush notification with no payload is emitted
(spec section 4.4), forwarded unchanged by the constructor's flush
listener (part_001 line 28). -/
def TTLCache.flush (st : CacheState) : CacheState × List Event :=
  ({ st with store := [] }, [Event.flush])

/-- Models the set method (part_001 lines 143 to 149): encode the key,
encode the value, store the token (the store applies the default ttl
and emits its set event, whose listener decodes the key and the token
and re-emits; a decode failure there is thrown out of the call with the
entry already stored and the ttl reset line never reached), then reset
the entry's ttl to the explicit argument.  An omitted ttl argument
defaults to the cache's default ttl. -/
def TTLCache.set (st : CacheState) (now : Nat) (key value : JsVal) (ttl : Nat) :
    CacheState × Except Unit (List Event) :=
  match stringify key with
  | .error _ => (st, .error ())
  | .ok keyOpt =>
    match stringify value with
    | .error _ => (st, .error ())
    | .ok tokenOpt =>
      let set_key := keyString keyOpt
      let st1 := ncSet st now set_key tokenOpt
      match decodeTok (some set_key), decodeTok tokenOpt with
      | .ok kv, .ok vv => (ncSetTtl st1 now set_key ttl, .ok [.set kv vv])
      | _, _ => (st1, .error ())

/-- Canonicity check for one stored string: it decodes and re-encodes to
itself, which holds exactly of the encodings of supported values. -/
def canonicalTok (s : String) : Bool :=
  match unstringify s with
  | some v => serStr v = s
  | none => false

/-- Well-formed store, as produced by writes of supported keys and
values: key tokens are unique and canonical and every stored value
token is canonical. -/
def wellFormed (st : CacheState) : Bool :=
  decide ((st.store.map Prod.fst).Nodup) &&
    st.store.all fun p =>
      canonicalTok p.1 &&
        (match p.2.token with
         | some s => canonicalTok s
         | none => false)

/-- Field lookup in a mapping literal by key. -/
def lookupField (k : String) : List (String × Value) → Option Value
  | [] => none
  | (k', v) :: fs => if k' = k then some v else lookupField k fs

mutual

/-- Modelled from the spec: structural equality of supported values,
matching composite-literal equality and not identity (spec section
4.1): primitives by value, ordered sequences pointwise in order, and
mappings with unique keys as maps, each key of either side present in
the other with structurally equal values, insertion order irrelevant. -/
def specStructEq : Value → Value → Bool
  | .null, .null => true
  | .bool a, .bool b => a == b
  | .int a, .int b => a == b
  | .str a, .str b => a == b
  | .arr xs, .arr ys => specStructEqList xs ys
  | .obj fs, .obj gs =>
    specFieldsIncl fs gs && gs.all fun p => (lookupField p.1 fs).isSome
  | _, _ => false

/-- Pointwise structural equality of two ordered sequences. -/
def specStructEqList : List Value → List Value → Bool
  | [], [] => true
  | x :: xs, y :: ys => specStructEq x y && specStructEqList xs ys
  | _, _ => false

/-- Containment of one mapping's fields in another up to structural
equality of the values. -/
def specFieldsIncl : List (String × Value) → List (String × Value) → Bool
  | [], _ => true
  | (k, v) :: fs, gs =>
    (match lookupField k gs with
     | some w => specStructEq v w
     | none => false) &&
      specFieldsIncl fs gs

end

/-- Models the variant's unstringify (src/src/index.ts lines 115 to 117),
whose body returns this.unstringify(str): a fuel-indexed unfolding of
the self-call, none meaning the given budget is exhausted; divergence
is exhaustion at every finite budget. -/
def variantUnstringify : Nat → String → Option Value
  | 0, _ => none
  | fuel + 1, s => variantUnstringify fuel s

/-- Models the variant's get (src/src/index.ts lines 49 to 59), which is
the canonical get with the decode of the stored token going through
the variant unstringify; none means the call exhausts the budget
without returning. -/
def variantGet (fuel : Nat) (st : CacheState) (now : Nat) (key : JsVal) :
    Option (Except GetErr Value) :=
  match stringify key with
  | .error _ => some (.error .encodingError)
  | .ok keyOpt =>
    let value : Option String :=
      match ncGet st now (keyString keyOpt) with
      | none => none
      | some t => t
    if tokenTruthy value then
      match value with
      | some s => (variantUnstringify fuel s).map .ok
      | none => some (.error .keyNotFound)
    else some (.error .keyNotFound)

/-- Decoding map of the variant's keys method (src/src/index.ts line 62)
over the store's key enumeration; none when some decode exhausts the
budget. -/
def mapVariantDecode (fuel : Nat) : List String → Option (List Value)
  | [] => some []
  | s :: ss =>
    match variantUnstringify fuel s with
    | none => none
    | some v => (mapVariantDecode fuel ss).map fun vs => v :: vs

/-- Models the variant's keys (src/src/index.ts lines 61 to 63). -/
def variantKeys (fuel : Nat) (st : CacheState) (now : Nat) : Option (List Value) :=
  mapVariantDecode fuel (ncKeys st now)

/-- Result-map construction of the variant's mget (src/src/index.ts lines
84 to 88), decoding through the variant unstringify; none when some
decode exhausts the budget. -/
def variantBuildPairs (fuel : Nat) :
    List (String × Option String) → Option (List (Value × Value))
  | [] => some []
  | (k, tok) :: rest =>
    if tokenTruthy tok then
      match variantUnstringify fuel k with
      | none => none
      | some kv =>
        match tok with
        | some s =>
          match variantUnstringify fuel s with
          | none => none
          | some vv => (variantBuildPairs fuel rest).map fun m => (kv, vv) :: m
        | none => none
    else variantBuildPairs fuel rest

/-- Models the variant's mget (src/src/index.ts lines 77 to 91); none
means the call exhausts the budget without returning. -/
def variantMget (fuel : Nat) (st : CacheState) (now : Nat) (keys : List JsVal) :
    Option (Except Unit (List (Value × Value))) :=
  match mapStringify keys with
  | .error e => some (.error e)
  | .ok fetchKeys =>
    (variantBuildPairs fuel (ncMGet st now (fetchKeys.map keyString))).map .ok

/-- Models the variant's list (src/src/index.ts lines 65 to 69): mget
over the keys() result, when the latter returns at all. -/
def variantList (fuel : Nat) (st : CacheState) (now : Nat) :
    Option (Except Unit (List (Value × Value))) :=
  match variantKeys fuel st now with
  | none => none
  | some ks => variantMget fuel st now (ks.map JsVal.val)

/-- Models the variant constructor's set, expired and del listeners
(src/src/index.ts lines 19 to 22), which decode the raw key and raw
token through the variant unstringify before re-emitting; none means
the forwarding never returns within the budget. -/
def variantForward (fuel : Nat) (mk : Value → Value → Event) (k : String)
    (tok : Option String) : Option Event :=
  match variantUnstringify fuel k with
  | none => none
  | some kv =>
    match tok with
    | some s => (variantUnstringify fuel s).map fun vv => mk kv vv
    | none => none

theorem isDigitChar_digitChar {n : Nat} (h : n < 10) : isDigitChar (digitChar n) = true := by
  interval_cases n <;> decide

theorem digitVal_digitChar {n : Nat} (h : n < 10) : digitVal (digitChar n) = n := by
  interval_cases n <;> decide

theorem hexVal_hexDigitChar {n : Nat} (h : n < 16) : hexVal (hexDigitChar n) = some n := by
  interval_cases n <;> decide

theorem natFromDigits_append (l : List Char) (d : Char) :
    natFromDigits (l ++ [d]) = natFromDigits l * 10 + digitVal d := by
  simp [natFromDigits, List.foldl_append]

theorem natCharsAux_spec :
    ∀ fuel n, n < fuel →
      natCharsAux fuel n ≠ [] ∧ (∀ c ∈ natCharsAux fuel n, isDigitChar c = true) ∧
        natFromDigits (natCharsAux fuel n) = n := by
  intro fuel
  induction fuel with
  | zero => omega
  | succ fuel ih =>
    intro n hn
    by_cases h10 : n < 10
    · refine ⟨by simp [natCharsAux, h10], ?_, ?_⟩
      · intro c hc
        simp [natCharsAux, h10] at hc
        subst hc
        exact isDigitChar_digitChar h10
      · simp [natCharsAux, h10, natFromDigits, digitVal_digitChar h10]
    · have hq : n / 10 < fuel := by
        have h1 : n / 10 < n := Nat.div_lt_self (by omega) (by omega)
        omega
      obtain ⟨hne, hdig, hval⟩ := ih (n / 10) hq
      refine ⟨by simp [natCharsAux, h10], ?_, ?_⟩
      · intro c hc
        simp only [natCharsAux, if_neg h10, List.mem_append, List.mem_singleton] at hc
        rcases hc with hc | hc
        · exact hdig c hc
        · subst hc
          exact isDigitChar_digitChar (Nat.mod_lt _ (by omega))
      · simp only [natCharsAux, if_neg h10]
        rw [natFromDigits_append, hval, digitVal_digitChar (Nat.mod_lt _ (by omega))]
        omega

theorem natChars_ne_nil (n : Nat) : natChars n ≠ [] :=
  (natCharsAux_spec (n + 1) n (by omega)).1

theorem natChars_digits (n : Nat) : ∀ c ∈ natChars n, isDigitChar c = true :=
  (natCharsAux_spec (n + 1) n (by omega)).2.1

theorem natFromDigits_natChars (n : Nat) : natFromDigits (natChars n) = n :=
  (natCharsAux_spec (n + 1) n (by omega)).2.2

theorem span_digits (l1 l2 : List Char) (h1 : ∀ c ∈ l1, isDigitChar c = true)
    (h2 : ∀ c, l2.head? = some c → isDigitChar c = false) :
    (l1 ++ l2).span isDigitChar = (l1, l2) := by
  induction l1 with
  | nil =>
    cases l2 with
    | nil => simp [List.span_eq_take_drop]
    | cons c t =>
      simp [List.span_eq_take_drop, List.takeWhile_cons, List.dropWhile_cons, h2 c rfl]
  | cons c l1 ih =>
    have hc : isDigitChar c = true := h1 c (by simp)
    have ih' := ih (fun d hd => h1 d (by simp [hd]))
    simp only [List.span_eq_take_drop] at ih' ⊢
    simp [List.takeWhile_cons, List.dropWhile_cons, hc, Prod.ext_iff] at ih' ⊢
    exact ih'

theorem parseNum_natChars (n : Nat) (rest : List Char)
    (hrest : ∀ c, rest.head? = some c → isDigitChar c = false) :
    parseNum (natChars n ++ rest) = some ((n : Int), rest) := by
  rcases hnc : natChars n with _ | ⟨d, ds⟩
  · exact absurd hnc (natChars_ne_nil n)
  · have hd : isDigitChar d = true := natChars_digits n d (by simp [hnc])
    have hdm : d ≠ '-' := by
      intro h
      rw [h] at hd
      exact absurd hd (by decide)
    have hspan : ((d :: ds) ++ rest).span isDigitChar = (d :: ds, rest) := by
      refine span_digits _ _ (fun c hc => natChars_digits n c (by simp [hnc, hc])) hrest
    have hval : natFromDigits (d :: ds) = n := by
      rw [← hnc]
      exact natFromDigits_natChars n
    rw [List.cons_append, parseNum.eq_def]
    split
    · rename_i rest' heq
      exact absurd (List.cons.inj heq).1 hdm
    · rw [← List.cons_append, hspan]
      simp [hval]

theorem parseNum_intChars (n : Int) (rest : List Char)
    (hrest : ∀ c, rest.head? = some c → isDigitChar c = false) :
    parseNum (intChars n ++ rest) = some (n, rest) := by
  by_cases hn : n < 0
  · have hpos : ((-n).toNat : Int) = -n := Int.toNat_of_nonneg (by omega)
    simp only [intChars, if_pos hn, List.cons_append, parseNum]
    have hspan : (natChars (-n).toNat ++ rest).span isDigitChar =
        (natChars (-n).toNat, rest) := span_digits _ _ (natChars_digits _) hrest
    rw [hspan]
    simp [natChars_ne_nil, natFromDigits_natChars]
    omega
  · have hpos : (n.toNat : Int) = n := Int.toNat_of_nonneg (by omega)
    rw [intChars, if_neg hn, parseNum_natChars _ _ hrest, hpos]

theorem parseStrChars_uStep (a : Nat) (h1 h2 h3 h4 : Char)
    (hq : hexQuad h1 h2 h3 h4 = some a) (hno : ¬(55296 ≤ a ∧ a < 57344))
    (tl : List Char) :
    parseStrChars ('\\' :: 'u' :: h1 :: h2 :: h3 :: h4 :: tl) =
      (parseStrChars tl).map fun p => (Char.ofNat a :: p.1, p.2) := by
  have h0 : parseStrChars ('\\' :: 'u' :: h1 :: h2 :: h3 :: h4 :: tl) =
      (match hexQuad h1 h2 h3 h4 with
       | some n =>
         if 55296 ≤ n ∧ n < 57344 then none
         else (parseStrChars tl).map fun p => (Char.ofNat n :: p.1, p.2)
       | none => none) := rfl
  rw [h0, hq]
  simp [hno]

theorem parseStrChars_literal {c : Char} (h1 : c ≠ '"') (h2 : c ≠ '\\')
    (h8 : ¬ c.toNat < 32) (tl : List Char) :
    parseStrChars (c :: tl) = (parseStrChars tl).map fun p => (c :: p.1, p.2) := by
  rw [parseStrChars.eq_def]
  simp [h1, h2, h8]

theorem parseStrChars_escape (cs rest : List Char) :
    parseStrChars (escapeChars cs ++ '"' :: rest) = some (cs, rest) := by
  induction cs with
  | nil =>
    rw [show escapeChars [] ++ '"' :: rest = '"' :: rest from rfl, parseStrChars.eq_def]
    rfl
  | cons c cs ih =>
    by_cases h1 : c = '"'
    · subst h1
      show parseStrChars ('\\' :: '"' :: (escapeChars cs ++ '"' :: rest)) = _
      rw [show ∀ tl, parseStrChars ('\\' :: '"' :: tl) =
          (parseStrChars tl).map fun p => ('"' :: p.1, p.2) from fun tl => rfl, ih]
      rfl
    · by_cases h2 : c = '\\'
      · subst h2
        show parseStrChars ('\\' :: '\\' :: (escapeChars cs ++ '"' :: rest)) = _
        rw [show ∀ tl, parseStrChars ('\\' :: '\\' :: tl) =
            (parseStrChars tl).map fun p => ('\\' :: p.1, p.2) from fun tl => rfl, ih]
        rfl
      · by_cases h3 : c = '\x08'
        · subst h3
          show parseStrChars ('\\' :: 'b' :: (escapeChars cs ++ '"' :: rest)) = _
          rw [show ∀ tl, parseStrChars ('\\' :: 'b' :: tl) =
              (parseStrChars tl).map fun p => ('\x08' :: p.1, p.2) from fun tl => rfl, ih]
          rfl
        · by_cases h4 : c = '\x09'
          · subst h4
            show parseStrChars ('\\' :: 't' :: (escapeChars cs ++ '"' :: rest)) = _
            rw [show ∀ tl, parseStrChars ('\\' :: 't' :: tl) =
                (parseStrChars tl).map fun p => ('\x09' :: p.1, p.2) from fun tl => rfl, ih]
            rfl
          · by_cases h5 : c = '\x0a'
            · subst h5
              show parseStrChars ('\\' :: 'n' :: (escapeChars cs ++ '"' :: rest)) = _
              rw [show ∀ tl, parseStrChars ('\\' :: 'n' :: tl) =
                  (parseStrChars tl).map fun p => ('\x0a' :: p.1, p.2) from fun tl => rfl,
                ih]
              rfl
            · by_cases h6 : c = '\x0c'
              · subst h6
                show parseStrChars ('\\' :: 'f' :: (escapeChars cs ++ '"' :: rest)) = _
                rw [show ∀ tl, parseStrChars ('\\' :: 'f' :: tl) =
                    (parseStrChars tl).map fun p => ('\x0c' :: p.1, p.2) from fun tl => rfl,
                  ih]
                rfl
              · by_cases h7 : c = '\x0d'
                · subst h7
                  show parseStrChars ('\\' :: 'r' :: (escapeChars cs ++ '"' :: rest)) = _
                  rw [show ∀ tl, parseStrChars ('\\' :: 'r' :: tl) =
                      (parseStrChars tl).map fun p => ('\x0d' :: p.1, p.2) from fun tl => rfl,
                    ih]
                  rfl
                · by_cases h8 : c.toNat < 32
                  · have hq : hexQuad '0' '0' (hexDigitChar (c.toNat / 16))
                        (hexDigitChar (c.toNat % 16)) = some c.toNat := by
                      simp [hexQuad, show hexVal '0' = some 0 from rfl,
                        hexVal_hexDigitChar (show c.toNat / 16 < 16 by omega),
                        hexVal_hexDigitChar (show c.toNat % 16 < 16 by omega)]
                      omega
                    simp only [escapeChars, escapeChar, if_neg h1, if_neg h2, if_neg h3,
                      if_neg h4, if_neg h5, if_neg h6, if_neg h7, if_pos h8,
                      List.cons_append, List.nil_append]
                    rw [parseStrChars_uStep c.toNat _ _ _ _ hq (by omega), ih,
                      Char.ofNat_toNat]
                    rfl
                  · simp only [escapeChars, escapeChar, if_neg h1, if_neg h2, if_neg h3,
                      if_neg h4, if_neg h5, if_neg h6, if_neg h7, if_neg h8,
                      List.cons_append, List.nil_append]
                    rw [parseStrChars_literal h1 h2 h8, ih]
                    rfl

theorem serValue_head (v : Value) :
    ∃ c t, serValue v = c :: t ∧
      (c = 'n' ∨ c = 't' ∨ c = 'f' ∨ c = '"' ∨ c = '[' ∨ c = '{' ∨ c = '-' ∨
        isDigitChar c = true) := by
  cases v with
  | null => exact ⟨'n', _, rfl, by simp⟩
  | bool b => cases b with
    | true => exact ⟨'t', _, rfl, by simp⟩
    | false => exact ⟨'f', _, rfl, by simp⟩
  | int n =>
    have hser : serValue (.int n) = intChars n := rfl
    by_cases hn : n < 0
    · refine ⟨'-', natChars (-n).toNat, ?_, by simp⟩
      rw [hser, intChars, if_pos hn]
    · rcases hnc : natChars n.toNat with _ | ⟨d, ds⟩
      · exact absurd hnc (natChars_ne_nil _)
      · refine ⟨d, ds, ?_, ?_⟩
        · rw [hser, intChars, if_neg hn, hnc]
        · have : isDigitChar d = true :=
            natChars_digits _ d (by rw [hnc]; exact List.mem_cons_self d ds)
          tauto
  | str s => exact ⟨'"', _, rfl, by simp⟩
  | arr xs => exact ⟨'[', _, rfl, by simp⟩
  | obj fs => exact ⟨'{', _, rfl, by simp⟩

theorem serValue_ne_nil (v : Value) : serValue v ≠ [] := by
  obtain ⟨c, t, h, -⟩ := serValue_head v
  simp [h]

theorem serValue_head_ne (v : Value) {c : Char} {t : List Char}
    (h : serValue v = c :: t) : c ≠ ']' ∧ c ≠ '}' := by
  obtain ⟨c', t', h', hd⟩ := serValue_head v
  rw [h] at h'
  obtain ⟨rfl, rfl⟩ := List.cons.inj h'
  constructor
  · rintro rfl
    rcases hd with h | h | h | h | h | h | h | h <;> exact absurd h (by decide)
  · rintro rfl
    rcases hd with h | h | h | h | h | h | h | h <;> exact absurd h (by decide)

theorem parseV_succ (fuel : Nat) (cs : List Char) :
    parseV (fuel + 1) cs =
      match cs with
      | 'n' :: 'u' :: 'l' :: 'l' :: r => some (.null, r)
      | 't' :: 'r' :: 'u' :: 'e' :: r => some (.bool true, r)
      | 'f' :: 'a' :: 'l' :: 's' :: 'e' :: r => some (.bool false, r)
      | '"' :: r => (parseStrChars r).map fun p => (.str (String.mk p.1), p.2)
      | '[' :: r =>
        (match r with
         | ']' :: r2 => some (.arr [], r2)
         | _ => (parseElems fuel r).map fun p => (.arr p.1, p.2))
      | '{' :: r =>
        (match r with
         | '}' :: r2 => some (.obj [], r2)
         | _ => (parseFields fuel r).map fun p => (.obj p.1, p.2))
      | _ => (parseNum cs).map fun p => (.int p.1, p.2) := rfl

theorem parseElems_succ (fuel : Nat) (cs : List Char) :
    parseElems (fuel + 1) cs =
      match parseV fuel cs with
      | none => none
      | some (v, r) =>
        match r with
        | ',' :: r2 => (parseElems fuel r2).map fun p => (v :: p.1, p.2)
        | ']' :: r2 => some ([v], r2)
        | _ => none := rfl

theorem parseFields_succ (fuel : Nat) (cs : List Char) :
    parseFields (fuel + 1) cs =
      match cs with
      | '"' :: r =>
        (match parseStrChars r with
         | none => none
         | some (kcs, r2) =>
           match r2 with
           | ':' :: r3 =>
             (match parseV fuel r3 with
              | none => none
              | some (v, r4) =>
                match r4 with
                | ',' :: r5 =>
                  (parseFields fuel r5).map fun p => ((String.mk kcs, v) :: p.1, p.2)
                | '}' :: r5 => some ([(String.mk kcs, v)], r5)
                | _ => none)
           | _ => none)
      | _ => none := rfl

theorem parseV_num (fuel : Nat) (c : Char) (t : List Char)
    (hc : c = '-' ∨ isDigitChar c = true) :
    parseV (fuel + 1) (c :: t) = (parseNum (c :: t)).map fun p => (.int p.1, p.2) := by
  have hcn : ∀ d : Char, c = d → isDigitChar d = false → d ≠ '-' → False := by
    rintro d rfl hdig hdm
    rcases hc with h | h
    · exact hdm h
    · rw [h] at hdig
      exact absurd hdig (by simp)
  rw [parseV_succ]
  split
  · rename_i heq
    exact absurd ((List.cons.inj heq).1) (fun h => hcn _ h (by decide) (by decide))
  · rename_i heq
    exact absurd ((List.cons.inj heq).1) (fun h => hcn _ h (by decide) (by decide))
  · rename_i heq
    exact absurd ((List.cons.inj heq).1) (fun h => hcn _ h (by decide) (by decide))
  · rename_i heq
    exact absurd ((List.cons.inj heq).1) (fun h => hcn _ h (by decide) (by decide))
  · rename_i heq
    exact absurd ((List.cons.inj heq).1) (fun h => hcn _ h (by decide) (by decide))
  · rename_i heq
    exact absurd ((List.cons.inj heq).1) (fun h => hcn _ h (by decide) (by decide))
  · rfl

theorem parseV_quote (fuel : Nat) (r : List Char) :
    parseV (fuel + 1) ('"' :: r) =
      (parseStrChars r).map fun p => (.str (String.mk p.1), p.2) := rfl

theorem parseV_arr (fuel : Nat) (c : Char) (t : List Char) (hc : c ≠ ']') :
    parseV (fuel + 1) ('[' :: c :: t) =
      (parseElems fuel (c :: t)).map fun p => (.arr p.1, p.2) := by
  have h0 : parseV (fuel + 1) ('[' :: c :: t) =
      (match c :: t with
       | ']' :: r2 => some (.arr [], r2)
       | _ => (parseElems fuel (c :: t)).map fun p => (.arr p.1, p.2)) := rfl
  rw [h0]
  split
  · rename_i heq
    exact absurd (List.cons.inj heq).1 hc
  · rfl

theorem parseV_obj (fuel : Nat) (c : Char) (t : List Char) (hc : c ≠ '}') :
    parseV (fuel + 1) ('{' :: c :: t) =
      (parseFields fuel (c :: t)).map fun p => (.obj p.1, p.2) := by
  have h0 : parseV (fuel + 1) ('{' :: c :: t) =
      (match c :: t with
       | '}' :: r2 => some (.obj [], r2)
       | _ => (parseFields fuel (c :: t)).map fun p => (.obj p.1, p.2)) := rfl
  rw [h0]
  split
  · rename_i heq
    exact absurd (List.cons.inj heq).1 hc
  · rfl

theorem intChars_head (n : Int) (c : Char) (t : List Char) (h : intChars n = c :: t) :
    c = '-' ∨ isDigitChar c = true := by
  rw [intChars] at h
  split at h
  · exact Or.inl (List.cons.inj h).1.symm
  · refine Or.inr (natChars_digits n.toNat c ?_)
    rw [h]
    exact List.mem_cons_self c t

theorem serElems_cons_head (x : Value) (xs : List Value) (c : Char) (t : List Char)
    (h : serValue x = c :: t) : ∃ t2, serElems (x :: xs) = c :: t2 := by
  cases xs with
  | nil => exact ⟨t, h⟩
  | cons y ys =>
    refine ⟨t ++ ',' :: serElems (y :: ys), ?_⟩
    rw [show serElems (x :: y :: ys) = serValue x ++ ',' :: serElems (y :: ys) from rfl, h]
    simp

theorem serFields_cons_head (k : String) (v : Value) (fs : List (String × Value)) :
    ∃ t2, serFields ((k, v) :: fs) = '"' :: t2 := by
  cases fs with
  | nil => exact ⟨_, rfl⟩
  | cons g gs => exact ⟨_, rfl⟩

theorem parseFields_quote (fuel : Nat) (r : List Char) :
    parseFields (fuel + 1) ('"' :: r) =
      match parseStrChars r with
      | none => none
      | some (kcs, r2) =>
        match r2 with
        | ':' :: r3 =>
          (match parseV fuel r3 with
           | none => none
           | some (v, r4) =>
             match r4 with
             | ',' :: r5 =>
               (parseFields fuel r5).map fun p => ((String.mk kcs, v) :: p.1, p.2)
             | '}' :: r5 => some ([(String.mk kcs, v)], r5)
             | _ => none)
        | _ => none := rfl

theorem parse_ser_all : ∀ fuel : Nat,
    (∀ v rest, (serValue v).length < fuel → numBoundary rest →
      parseV fuel (serValue v ++ rest) = some (v, rest)) ∧
    (∀ xs rest, xs ≠ [] → (serElems xs).length + 1 < fuel →
      parseElems fuel (serElems xs ++ ']' :: rest) = some (xs, rest)) ∧
    (∀ fs rest, fs ≠ [] → (serFields fs).length + 1 < fuel →
      parseFields fuel (serFields fs ++ '}' :: rest) = some (fs, rest)) := by
  intro fuel
  induction fuel using Nat.strong_induction_on with
  | _ fuel ih =>
    refine ⟨?_, ?_, ?_⟩
    · intro v rest hlen hb
      rcases fuel with _ | g
      · exact absurd hlen (by omega)
      cases v with
      | null => rfl
      | bool b => cases b <;> rfl
      | int n =>
        rcases hic : intChars n with _ | ⟨c, t⟩
        · exfalso
          rw [intChars] at hic
          split at hic
          · simp at hic
          · exact natChars_ne_nil _ hic
        · have hc := intChars_head n c t hic
          show parseV (g + 1) (intChars n ++ rest) = some (.int n, rest)
          rw [hic, List.cons_append, parseV_num g c (t ++ rest) hc, ← List.cons_append,
            ← hic, parseNum_intChars n rest hb]
          rfl
      | str s =>
        show parseV (g + 1)
            ('"' :: ((escapeChars s.toList ++ ['"']) ++ rest)) = some (.str s, rest)
        rw [List.append_assoc, List.singleton_append, parseV_quote,
          parseStrChars_escape]
        rfl
      | arr xs =>
        rcases xs with _ | ⟨x, xs⟩
        · rfl
        · obtain ⟨c, t, hx, -⟩ := serValue_head x
          obtain ⟨t2, hE⟩ := serElems_cons_head x xs c t hx
          have hlen2 : (serElems (x :: xs)).length + 1 < g := by
            have hv : (serValue (.arr (x :: xs))).length =
                (serElems (x :: xs)).length + 2 := by
              rw [show serValue (.arr (x :: xs)) =
                '[' :: (serElems (x :: xs) ++ [']']) from rfl]
              simp
            omega
          show parseV (g + 1)
              ('[' :: ((serElems (x :: xs) ++ [']']) ++ rest)) = some (.arr (x :: xs), rest)
          rw [List.append_assoc, List.singleton_append, hE, List.cons_append,
            parseV_arr g c _ (serValue_head_ne x hx).1, ← List.cons_append, ← hE,
            (ih g (by omega)).2.1 (x :: xs) rest (by simp) hlen2]
          rfl
      | obj fs =>
        rcases fs with _ | ⟨⟨k, v⟩, fs⟩
        · rfl
        · obtain ⟨t2, hE⟩ := serFields_cons_head k v fs
          have hlen2 : (serFields ((k, v) :: fs)).length + 1 < g := by
            have hv : (serValue (.obj ((k, v) :: fs))).length =
                (serFields ((k, v) :: fs)).length + 2 := by
              rw [show serValue (.obj ((k, v) :: fs)) =
                '{' :: (serFields ((k, v) :: fs) ++ ['}']) from rfl]
              simp
            omega
          show parseV (g + 1)
              ('{' :: ((serFields ((k, v) :: fs) ++ ['}']) ++ rest)) =
                some (.obj ((k, v) :: fs), rest)
          rw [List.append_assoc, List.singleton_append, hE, List.cons_append,
            parseV_obj g '"' _ (by decide), ← List.cons_append, ← hE,
            (ih g (by omega)).2.2 ((k, v) :: fs) rest (by simp) hlen2]
          rfl
    · intro xs rest hne hlen
      rcases fuel with _ | g
      · exact absurd hlen (by omega)
      rcases xs with _ | ⟨x, xs⟩
      · exact absurd rfl hne
      rw [parseElems_succ]
      rcases xs with _ | ⟨y, ys⟩
      · have hlx : (serValue x).length < g := by
          have hq : serElems [x] = serValue x := rfl
          rw [hq] at hlen
          omega
        have hb : numBoundary (']' :: rest) := by
          intro c hc
          simp at hc
          subst hc
          decide
        rw [show serElems [x] ++ ']' :: rest = serValue x ++ ']' :: rest from rfl,
          (ih g (by omega)).1 x (']' :: rest) hlx hb]
        rfl
      · have hser : serElems (x :: y :: ys) =
            serValue x ++ ',' :: serElems (y :: ys) := rfl
        have hlx : (serValue x).length < g := by
          rw [hser] at hlen
          simp at hlen
          omega
        have hlys : (serElems (y :: ys)).length + 1 < g := by
          rw [hser] at hlen
          simp at hlen
          omega
        have hb : numBoundary (',' :: (serElems (y :: ys) ++ ']' :: rest)) := by
          intro c hc
          simp at hc
          subst hc
          decide
        rw [hser, List.append_assoc, List.cons_append,
          (ih g (by omega)).1 x _ hlx hb]
        show (parseElems g (serElems (y :: ys) ++ ']' :: rest)).map
            (fun p => (x :: p.1, p.2)) = some (x :: y :: ys, rest)
        rw [(ih g (by omega)).2.1 (y :: ys) rest (by simp) hlys]
        rfl
    · intro fs rest hne hlen
      rcases fuel with _ | g
      · exact absurd hlen (by omega)
      rcases fs with _ | ⟨⟨k, v⟩, fs⟩
      · exact absurd rfl hne
      rcases fs with _ | ⟨⟨k2, v2⟩, gs⟩
      · have hser : serFields [(k, v)] = serStringChars k ++ ':' :: serValue v := rfl
        have hlv : (serValue v).length < g := by
          rw [hser] at hlen
          simp [serStringChars] at hlen
          omega
        have hb : numBoundary ('}' :: rest) := by
          intro c hc
          simp at hc
          subst hc
          decide
        show parseFields (g + 1)
            ('"' :: (((escapeChars k.toList ++ ['"']) ++ (':' :: serValue v)) ++
              '}' :: rest)) = some ([(k, v)], rest)
        rw [parseFields_quote,
          show ((escapeChars k.toList ++ ['"']) ++ (':' :: serValue v)) ++ '}' :: rest =
            escapeChars k.toList ++ '"' :: (':' :: (serValue v ++ '}' :: rest)) by simp,
          parseStrChars_escape]
        show (match parseV g (serValue v ++ '}' :: rest) with
          | none => none
          | some (w, r4) =>
            match r4 with
            | ',' :: r5 =>
              (parseFields g r5).map fun p => ((String.mk k.toList, w) :: p.1, p.2)
            | '}' :: r5 => some ([(String.mk k.toList, w)], r5)
            | _ => none) = some ([(k, v)], rest)
        rw [(ih g (by omega)).1 v ('}' :: rest) hlv hb]
        rfl
      · have hser : serFields ((k, v) :: (k2, v2) :: gs) =
            serStringChars k ++ ':' :: (serValue v ++ ',' :: serFields ((k2, v2) :: gs)) :=
          rfl
        have hlv : (serValue v).length < g := by
          rw [hser] at hlen
          simp [serStringChars] at hlen
          omega
        have hlgs : (serFields ((k2, v2) :: gs)).length + 1 < g := by
          rw [hser] at hlen
          simp [serStringChars] at hlen
          omega
        have hb : numBoundary (',' :: (serFields ((k2, v2) :: gs) ++ '}' :: rest)) := by
          intro c hc
          simp at hc
          subst hc
          decide
        show parseFields (g + 1)
            ('"' :: (((escapeChars k.toList ++ ['"']) ++
              (':' :: (serValue v ++ ',' :: serFields ((k2, v2) :: gs)))) ++
              '}' :: rest)) = some ((k, v) :: (k2, v2) :: gs, rest)
        rw [parseFields_quote,
          show ((escapeChars k.toList ++ ['"']) ++
              (':' :: (serValue v ++ ',' :: serFields ((k2, v2) :: gs)))) ++ '}' :: rest =
            escapeChars k.toList ++
              '"' :: (':' :: (serValue v ++
                ',' :: (serFields ((k2, v2) :: gs) ++ '}' :: rest))) by simp,
          parseStrChars_escape]
        show (match parseV g (serValue v ++
            ',' :: (serFields ((k2, v2) :: gs) ++ '}' :: rest)) with
          | none => none
          | some (w, r4) =>
            match r4 with
            | ',' :: r5 =>
              (parseFields g r5).map fun p => ((String.mk k.toList, w) :: p.1, p.2)
            | '}' :: r5 => some ([(String.mk k.toList, w)], r5)
            | _ => none) = some ((k, v) :: (k2, v2) :: gs, rest)
        rw [(ih g (by omega)).1 v _ hlv hb]
        show (parseFields g (serFields ((k2, v2) :: gs) ++ '}' :: rest)).map
            (fun p => ((String.mk k.toList, v) :: p.1, p.2)) =
          some ((k, v) :: (k2, v2) :: gs, rest)
        rw [(ih g (by omega)).2.2 ((k2, v2) :: gs) rest (by simp) hlgs]
        rfl

theorem unstringify_serStr (v : Value) : unstringify (serStr v) = some v := by
  have h := (parse_ser_all ((serValue v).length + 1)).1 v [] (by omega)
    (fun c hc => by simp at hc)
  rw [List.append_nil] at h
  show (match parseV ((serStr v).length + 1) (serStr v).toList with
    | some (w, []) => some w
    | _ => none) = some v
  rw [show (serStr v).length = (serValue v).length from rfl,
    show (serStr v).toList = serValue v from rfl, h]

theorem serStr_inj {a b : Value} (h : serStr a = serStr b) : a = b := by
  have ha := unstringify_serStr a
  rw [h, unstringify_serStr b] at ha
  exact (Option.some.inj ha).symm

theorem serStr_ne_empty (v : Value) : serStr v ≠ "" := by
  intro h
  exact serValue_ne_nil v (congrArg String.toList h)

theorem serStr_isEmpty_false (v : Value) : (serStr v).isEmpty = false := by
  rcases h : (serStr v).isEmpty with _ | _
  · rfl
  · exact absurd ((String.isEmpty_iff (serStr v)).mp h) (serStr_ne_empty v)

theorem tokenTruthy_serStr (v : Value) : tokenTruthy (some (serStr v)) = true := by
  show (!(serStr v).isEmpty) = true
  rw [serStr_isEmpty_false]
  rfl

theorem decodeTok_serStr (v : Value) : decodeTok (some (serStr v)) = .ok v := by
  show (match unstringify (serStr v) with
    | some w => Except.ok w
    | none => .error ()) = .ok v
  rw [unstringify_serStr]

theorem canonicalTok_serStr (v : Value) : canonicalTok (serStr v) = true := by
  show (match unstringify (serStr v) with
    | some w => decide (serStr w = serStr v)
    | none => false) = true
  rw [unstringify_serStr]
  simp

theorem canonicalTok_spec {s : String} (h : canonicalTok s = true) :
    ∃ v, unstringify s = some v ∧ serStr v = s := by
  unfold canonicalTok at h
  rcases hu : unstringify s with _ | v
  · rw [hu] at h
    simp at h
  · rw [hu] at h
    simp at h
    exact ⟨v, rfl, h⟩

theorem lookup_replace_self (k : String) (e : CacheEntry) :
    ∀ l, lookupStore k (replaceStore k e l) = some e := by
  intro l
  induction l with
  | nil => simp [replaceStore, lookupStore]
  | cons p rest ih =>
    rcases p with ⟨k', e'⟩
    by_cases hk : k' = k
    · subst hk
      simp [replaceStore, lookupStore]
    · simp [replaceStore, lookupStore, hk, ih]

/-- C3: for every supported value, the cache's encode (the private
stringify, JSON.stringify) yields a token that its decode (the private
unstringify, JSON.parse) maps back to the same value: the round-trip
law decode(encode(v)) = v. -/
theorem C3_decode_encode_roundtrip (v : Value) :
    stringify (.val v) = .ok (some (serStr v)) ∧ unstringify (serStr v) = some v :=
  ⟨rfl, unstringify_serStr v⟩

/-- C8 counterexample: the two mapping literals with fields a = 0, b = 1
written in opposite insertion orders are structurally equal in the
spec's sense (mappings compare as maps, order irrelevant), yet
JSON.stringify serializes fields in insertion order, so their encodings
differ.  This refutes the claimed canonicity: encode(a) = encode(b)
does not follow from structural equality. -/
theorem C8_counterexample :
    specStructEq (Value.obj [("a", .int 0), ("b", .int 1)])
        (Value.obj [("b", .int 1), ("a", .int 0)]) = true ∧
      serStr (Value.obj [("a", .int 0), ("b", .int 1)]) ≠
        serStr (Value.obj [("b", .int 1), ("a", .int 0)]) :=
  ⟨rfl, by decide⟩

/-- C8 amended: encode is deterministic and injective on supported
values: encode(a) = encode(b) exactly when a and b are equal as
literals, with mappings compared as ordered sequences of key-value
pairs; structurally equal mappings in different insertion orders may
encode to different tokens. -/
theorem C8_encode_eq_iff (a b : Value) : serStr a = serStr b ↔ a = b :=
  ⟨serStr_inj, fun h => h ▸ rfl⟩

/-- C7: flushing any cache state empties the store, so keys() returns
the empty sequence afterwards, and exactly one flush event is emitted,
whose constructor carries no payload. -/
theorem C7_flush (st : CacheState) (now : Nat) :
    TTLCache.keys (TTLCache.flush st).1 now = .ok [] ∧
      (TTLCache.flush st).2 = [Event.flush] :=
  ⟨rfl, rfl⟩

/-- C4: exists returns true exactly when get succeeds on the same state,
key and time, and it is a total boolean function, never throwing: every
thrown error of get, the encoding failure included, is caught and
mapped to false. -/
theorem C4_exists_iff_get (st : CacheState) (now : Nat) (key : JsVal) :
    TTLCache.exists' st now key = true ↔ ∃ v, TTLCache.get st now key = .ok v := by
  cases h : TTLCache.get st now key with
  | error e => simp [TTLCache.exists', h]
  | ok v => simp [TTLCache.exists', h]

theorem set_val_spec (st : CacheState) (now : Nat) (k v : Value) (ttl : Nat) :
    TTLCache.set st now (.val k) (.val v) ttl =
      (ncSetTtl (ncSet st now (serStr k) (some (serStr v))) now (serStr k) ttl,
        .ok [.set k v]) := by
  have h0 : TTLCache.set st now (.val k) (.val v) ttl =
      (match decodeTok (some (serStr k)), decodeTok (some (serStr v)) with
       | .ok kv, .ok vv =>
         (ncSetTtl (ncSet st now (serStr k) (some (serStr v))) now (serStr k) ttl,
           .ok [.set kv vv])
       | _, _ => (ncSet st now (serStr k) (some (serStr v)), .error ())) := rfl
  rw [h0, decodeTok_serStr k, decodeTok_serStr v]

theorem set_undef_spec (st : CacheState) (now : Nat) (k : Value) (ttl : Nat) :
    TTLCache.set st now (.val k) .undef ttl =
      (ncSet st now (serStr k) none, .error ()) := by
  have h0 : TTLCache.set st now (.val k) .undef ttl =
      (match decodeTok (some (serStr k)), decodeTok none with
       | .ok kv, .ok vv =>
         (ncSetTtl (ncSet st now (serStr k) none) now (serStr k) ttl, .ok [.set kv vv])
       | _, _ => (ncSet st now (serStr k) none, .error ())) := rfl
  rw [h0, decodeTok_serStr k]
  rfl

theorem ncSet_entry_isLive (st : CacheState) (now : Nat) :
    CacheEntry.isLive now
      ⟨some (serStr (Value.null)), if st.m_ttl = 0 then none else some (now + st.m_ttl)⟩ =
        true := by
  by_cases hm : st.m_ttl = 0 <;> simp [CacheEntry.isLive, hm] <;> omega

/-- C10: writing the undefined value under any supported key stores an
entry whose token is undefined (JSON.stringify of undefined yields no
token), and a following get finds the entry but its falsiness guard
rejects the token, so the call throws the named key-not-found error
rather than returning a value. -/
theorem C10_set_undefined_get (st : CacheState) (now : Nat) (kv : Value) (ttl : Nat) :
    TTLCache.get ((TTLCache.set st now (.val kv) .undef ttl).1) now (.val kv) =
      .error .keyNotFound := by
  rw [set_undef_spec]
  have hlook : lookupStore (serStr kv) (ncSet st now (serStr kv) none).store =
      some ⟨none, if st.m_ttl = 0 then none else some (now + st.m_ttl)⟩ :=
    lookup_replace_self _ _ _
  have hlive : CacheEntry.isLive now
      (⟨none, if st.m_ttl = 0 then none else some (now + st.m_ttl)⟩ : CacheEntry) =
        true := by
    by_cases hm : st.m_ttl = 0 <;> simp [CacheEntry.isLive, hm] <;> omega
  have hget : ncGet (ncSet st now (serStr kv) none) now (serStr kv) = some none := by
    unfold ncGet
    rw [hlook]
    simp [hlive]
  show (TTLCache.get (ncSet st now (serStr kv) none) now (.val kv)) = _
  unfold TTLCache.get
  simp only [stringify, keyString, hget]
  rfl

/-- C1: setting a supported key to a supported value with a positive ttl
and reading the key back immediately, at the same time instant and with
no intervening mutation, succeeds and returns exactly the value that
was written. -/
theorem C1_set_then_get (st : CacheState) (now : Nat) (k v : Value) (ttl : Nat)
    (h : 0 < ttl) :
    TTLCache.get ((TTLCache.set st now (.val k) (.val v) ttl).1) now (.val k) =
      .ok v := by
  rw [set_val_spec]
  have hlook1 : lookupStore (serStr k) (ncSet st now (serStr k) (some (serStr v))).store =
      some ⟨some (serStr v), if st.m_ttl = 0 then none else some (now + st.m_ttl)⟩ :=
    lookup_replace_self _ _ _
  have hlive1 : CacheEntry.isLive now
      (⟨some (serStr v), if st.m_ttl = 0 then none else some (now + st.m_ttl)⟩ :
        CacheEntry) = true := by
    by_cases hm : st.m_ttl = 0 <;> simp [CacheEntry.isLive, hm] <;> omega
  have hst2 : ncSetTtl (ncSet st now (serStr k) (some (serStr v))) now (serStr k) ttl =
      { ncSet st now (serStr k) (some (serStr v)) with
        store := replaceStore (serStr k)
          ⟨some (serStr v), if ttl = 0 then none else some (now + ttl)⟩
          (ncSet st now (serStr k) (some (serStr v))).store } := by
    unfold ncSetTtl
    rw [hlook1]
    simp [hlive1]
  rw [hst2]
  have hlook2 : lookupStore (serStr k)
      (replaceStore (serStr k)
        ⟨some (serStr v), if ttl = 0 then none else some (now + ttl)⟩
        (ncSet st now (serStr k) (some (serStr v))).store) =
      some ⟨some (serStr v), if ttl = 0 then none else some (now + ttl)⟩ :=
    lookup_replace_self _ _ _
  have hlive2 : CacheEntry.isLive now
      (⟨some (serStr v), if ttl = 0 then none else some (now + ttl)⟩ : CacheEntry) =
        true := by
    rw [if_neg (by omega)]
    simp [CacheEntry.isLive]
    omega
  have hget : ncGet
      { ncSet st now (serStr k) (some (serStr v)) with
        store := replaceStore (serStr k)
          ⟨some (serStr v), if ttl = 0 then none else some (now + ttl)⟩
          (ncSet st now (serStr k) (some (serStr v))).store } now (serStr k) =
      some (some (serStr v)) := by
    unfold ncGet
    rw [hlook2]
    simp [hlive2]
  unfold TTLCache.get
  simp only [stringify, keyString, hget, tokenTruthy_serStr]
  simp [unstringify_serStr]

/-- C1 witness: a concrete set followed by get at the same instant
returns the written value. -/
theorem C1_witness :
    0 < 10 ∧
      TTLCache.get
        ((TTLCache.set ⟨300, []⟩ 0 (.val (.str "k")) (.val (.int 7)) 10).1) 0
        (.val (.str "k")) = .ok (.int 7) :=
  ⟨by decide, C1_set_then_get ⟨300, []⟩ 0 (.str "k") (.int 7) 10 (by decide)⟩

/-- C2 counterexample: with a store holding the key "a", calling mdel on
the sequence BigInt 0 (whose encoding throws a TypeError) followed by
"a" throws and removes nothing: the failure to encode the first key
aborts the removal of the other key, and nothing reports which keys
failed; the present key "a" is still in the store afterwards. -/
theorem C2_counterexample :
    TTLCache.mdel
        ⟨300, [(serStr (.str "a"), ⟨some (serStr (.int 1)), some 1000⟩)]⟩
        [JsVal.bigint 0, JsVal.val (.str "a")] =
      (⟨300, [(serStr (.str "a"), ⟨some (serStr (.int 1)), some 1000⟩)]⟩,
        .error ()) ∧
      lookupStore (serStr (.str "a"))
        (TTLCache.mdel
          ⟨300, [(serStr (.str "a"), ⟨some (serStr (.int 1)), some 1000⟩)]⟩
          [JsVal.bigint 0, JsVal.val (.str "a")]).1.store =
        some ⟨some (serStr (.int 1)), some 1000⟩ :=
  ⟨rfl, rfl⟩

theorem variantUnstringify_none : ∀ fuel s, variantUnstringify fuel s = none := by
  intro fuel
  induction fuel with
  | zero => intro s; rfl
  | succ fuel ih => intro s; exact ih s

/-- C9: in the variant src/src/index.ts the private unstringify returns
this.unstringify(str), calling itself unconditionally, so it yields no
result at any finite budget; consequently no operation that decodes a
stored token returns: get on a present live key with a truthy token,
keys on a store with at least one live entry, the bulk-read result
construction of mget whenever it has at least one truthy hit (and hence
mget itself), list on a store with a live entry, and the forwarding of
any set, expired or del event by the constructor's listeners. -/
theorem C9_variant_never_terminates :
    (∀ fuel s, variantUnstringify fuel s = none) ∧
    (∀ fuel st now (kv : Value) e, lookupStore (serStr kv) st.store = some e →
      e.isLive now = true → tokenTruthy e.token = true →
      variantGet fuel st now (.val kv) = none) ∧
    (∀ fuel st now, ncKeys st now ≠ [] → variantKeys fuel st now = none) ∧
    (∀ fuel ps, (∃ q ∈ ps, tokenTruthy q.2 = true) →
      variantBuildPairs fuel ps = none) ∧
    (∀ fuel st now (kvs : List JsVal) fetchKeys,
      mapStringify kvs = .ok fetchKeys →
      (∃ q ∈ ncMGet st now (fetchKeys.map keyString), tokenTruthy q.2 = true) →
      variantMget fuel st now kvs = none) ∧
    (∀ fuel st now, ncKeys st now ≠ [] → variantList fuel st now = none) ∧
    (∀ fuel mk k tok, variantForward fuel mk k tok = none) := by
  have hbuild : ∀ fuel ps, (∃ q ∈ ps, tokenTruthy q.2 = true) →
      variantBuildPairs fuel ps = none := by
    intro fuel ps
    induction ps with
    | nil => rintro ⟨q, hq, -⟩; simp at hq
    | cons p rest ih =>
      rintro ⟨q, hq, htr⟩
      rcases p with ⟨k, tok⟩
      by_cases ht : tokenTruthy tok = true
      · rcases htok : tok with _ | s
        · rw [htok] at ht
          simp [tokenTruthy] at ht
        · subst htok
          simp [variantBuildPairs, ht, variantUnstringify_none]
      · have hq' : q ∈ rest := by
          rcases List.mem_cons.mp hq with rfl | h
          · exact absurd htr ht
          · exact h
        simp [variantBuildPairs, ht]
        exact ih ⟨q, hq', htr⟩
  have hkeys : ∀ fuel st now, ncKeys st now ≠ [] → variantKeys fuel st now = none := by
    intro fuel st now hne
    unfold variantKeys
    rcases hk : ncKeys st now with _ | ⟨s, ss⟩
    · exact absurd hk hne
    · simp [mapVariantDecode, variantUnstringify_none]
  refine ⟨variantUnstringify_none, ?_, hkeys, hbuild, ?_, ?_, ?_⟩
  · intro fuel st now kv e hlook hlive htr
    have hget : ncGet st now (serStr kv) = some e.token := by
      unfold ncGet
      rw [hlook]
      simp [hlive]
    rcases htok : e.token with _ | s
    · rw [htok] at htr
      simp [tokenTruthy] at htr
    · rw [htok] at hget htr
      simp [variantGet, stringify, keyString, hget, htr, variantUnstringify_none]
  · intro fuel st now kvs fetchKeys hok hhit
    unfold variantMget
    rw [hok]
    simp [hbuild fuel _ hhit]
  · intro fuel st now hne
    unfold variantList
    rw [hkeys fuel st now hne]
  · intro fuel mk k tok
    simp [variantForward, variantUnstringify_none]

/-- C9 witness: concrete divergences of the variant's unstringify, get,
keys and event forwarding at sample budgets. -/
theorem C9_witness :
    variantUnstringify 5 (serStr .null) = none ∧
      variantGet 7 ⟨300, [(serStr (.int 0), ⟨some (serStr (.int 1)), some 10⟩)]⟩ 0
        (.val (.int 0)) = none ∧
      variantKeys 3 ⟨300, [(serStr (.int 0), ⟨some (serStr (.int 1)), some 10⟩)]⟩ 0 =
        none ∧
      variantForward 4 Event.set (serStr .null) (some (serStr .null)) = none :=
  ⟨C9_variant_never_terminates.1 5 _,
    C9_variant_never_terminates.2.1 7 _ 0 (.int 0) ⟨some (serStr (.int 1)), some 10⟩
      rfl rfl (by decide),
    C9_variant_never_terminates.2.2.1 3 _ 0 (by decide),
    C9_variant_never_terminates.2.2.2.2.2.2 4 Event.set _ _⟩

theorem lookup_mem {k : String} {e : CacheEntry} :
    ∀ {l}, lookupStore k l = some e → (k, e) ∈ l := by
  intro l
  induction l with
  | nil => intro h; simp [lookupStore] at h
  | cons p rest ih =>
    rcases p with ⟨k', e'⟩
    intro h
    by_cases hk : k' = k
    · subst hk
      simp [lookupStore] at h
      simp [h]
    · simp [lookupStore, hk] at h
      simp [ih h]

theorem mem_lookup {k : String} {e : CacheEntry} :
    ∀ {l}, (l.map Prod.fst).Nodup → (k, e) ∈ l → lookupStore k l = some e := by
  intro l
  induction l with
  | nil => intro _ h; simp at h
  | cons p rest ih =>
    rcases p with ⟨k', e'⟩
    intro hnd hmem
    have hnd' := (List.nodup_cons.mp hnd)
    rcases List.mem_cons.mp hmem with heq | hmem'
    · obtain ⟨rfl, rfl⟩ := Prod.mk.inj heq.symm
      simp [lookupStore]
    · have hne : k' ≠ k := by
        rintro rfl
        exact hnd'.1 (by simpa using List.mem_map_of_mem Prod.fst hmem')
      simp [lookupStore, hne, ih hnd'.2 hmem']

theorem lookup_none_of_not_mem {k : String} :
    ∀ {l}, k ∉ l.map Prod.fst → lookupStore k l = none := by
  intro l
  induction l with
  | nil => intro _; rfl
  | cons p rest ih =>
    rcases p with ⟨k', e'⟩
    intro h
    rw [List.map_cons] at h
    have h1 : k' ≠ k := fun he => h (by simp [he])
    have h2 : k ∉ rest.map Prod.fst := fun hm => h (by simp [hm])
    simp [lookupStore, h1, ih h2]

theorem ncGet_some_iff {st : CacheState} {now : Nat} {k : String} {t : Option String} :
    ncGet st now k = some t ↔
      ∃ e, lookupStore k st.store = some e ∧ e.isLive now = true ∧ t = e.token := by
  unfold ncGet
  rcases h : lookupStore k st.store with _ | e
  · constructor
    · intro hc
      exact absurd hc (by simp)
    · rintro ⟨e, he, -, -⟩
      exact absurd he (by simp)
  · show (if e.isLive now = true then some e.token else none) = some t ↔ _
    by_cases hl : e.isLive now = true
    · rw [if_pos hl]
      constructor
      · rintro hc
        exact ⟨e, rfl, hl, (Option.some.inj hc).symm⟩
      · rintro ⟨e', he', hl', rfl⟩
        cases Option.some.inj he'
        rfl
    · rw [if_neg hl]
      constructor
      · intro hc
        exact absurd hc (by simp)
      · rintro ⟨e', he', hl', -⟩
        cases Option.some.inj he'
        exact absurd hl' hl

theorem wellFormed_nodup {st : CacheState} (h : wellFormed st = true) :
    (st.store.map Prod.fst).Nodup := by
  unfold wellFormed at h
  rw [Bool.and_eq_true] at h
  exact of_decide_eq_true h.1

theorem wellFormed_mem {st : CacheState} (h : wellFormed st = true)
    {p : String × CacheEntry} (hp : p ∈ st.store) :
    (∃ kv, unstringify p.1 = some kv ∧ serStr kv = p.1) ∧
      ∃ s vv, p.2.token = some s ∧ unstringify s = some vv ∧ serStr vv = s := by
  unfold wellFormed at h
  rw [Bool.and_eq_true] at h
  have h2 := List.all_eq_true.mp h.2 p hp
  rw [Bool.and_eq_true] at h2
  refine ⟨canonicalTok_spec h2.1, ?_⟩
  rcases htok : p.2.token with _ | s
  · rw [htok] at h2
    simp at h2
  · rw [htok] at h2
    obtain ⟨vv, hv1, hv2⟩ := canonicalTok_spec h2.2
    exact ⟨s, vv, rfl, hv1, hv2⟩

theorem removeStore_sublist (k : String) : ∀ l, (removeStore k l).Sublist l := by
  intro l
  induction l with
  | nil => simp [removeStore]
  | cons p rest ih =>
    rcases p with ⟨k', e'⟩
    by_cases hk : k' = k
    · simp [removeStore, hk]
    · simp [removeStore, hk]
      exact ih

theorem wellFormed_remove {st : CacheState} (h : wellFormed st = true) (k : String) :
    wellFormed { st with store := removeStore k st.store } = true := by
  unfold wellFormed at h ⊢
  rw [Bool.and_eq_true] at h ⊢
  constructor
  · exact decide_eq_true
      (((removeStore_sublist k st.store).map Prod.fst).nodup (of_decide_eq_true h.1))
  · rw [List.all_eq_true] at h ⊢
    intro p hp
    exact h.2 p ((removeStore_sublist k st.store).mem hp)

theorem lookup_remove_self {k : String} {l : List (String × CacheEntry)}
    (hnd : (l.map Prod.fst).Nodup) : lookupStore k (removeStore k l) = none := by
  induction l with
  | nil => rfl
  | cons p rest ih =>
    rcases p with ⟨k', e'⟩
    simp at hnd
    by_cases hk : k' = k
    · subst hk
      rw [show removeStore k' ((k', e') :: rest) = rest from by simp [removeStore]]
      exact lookup_none_of_not_mem (by simpa using hnd.1)
    · rw [show removeStore k ((k', e') :: rest) = (k', e') :: removeStore k rest from
        by simp [removeStore, hk]]
      simp [lookupStore, hk]
      exact ih hnd.2

theorem lookup_remove_other {k k' : String} (hne : k' ≠ k) :
    ∀ l, lookupStore k' (removeStore k l) = lookupStore k' l := by
  intro l
  induction l with
  | nil => rfl
  | cons p rest ih =>
    rcases p with ⟨k2, e2⟩
    by_cases hk : k2 = k
    · subst hk
      rw [show removeStore k2 ((k2, e2) :: rest) = rest from by simp [removeStore]]
      have : k2 ≠ k' := fun h => hne h.symm
      simp [lookupStore, this]
    · rw [show removeStore k ((k2, e2) :: rest) = (k2, e2) :: removeStore k rest from
        by simp [removeStore, hk]]
      by_cases h2 : k2 = k'
      · subst h2
        simp [lookupStore]
      · simp [lookupStore, h2, ih]

theorem removeStore_of_not_mem {k : String} :
    ∀ {l : List (String × CacheEntry)}, k ∉ l.map Prod.fst → removeStore k l = l := by
  intro l
  induction l with
  | nil => intro _; rfl
  | cons p rest ih =>
    rcases p with ⟨k', e'⟩
    intro hnm
    rw [List.map_cons] at hnm
    have h1 : k' ≠ k := fun he => hnm (by simp [he])
    have h2 : k ∉ rest.map Prod.fst := fun hm => hnm (by simp [hm])
    simp [removeStore, h1, ih h2]

theorem ncDelOne_wf {st : CacheState} (hwf : wellFormed st = true) (k : String) :
    ∃ evs, ncDelOne st k = ({ st with store := removeStore k st.store }, .ok evs) := by
  rcases hlook : lookupStore k st.store with _ | e
  · refine ⟨[], ?_⟩
    have hnm : k ∉ st.store.map Prod.fst := by
      intro hm
      obtain ⟨p, hp, hfst⟩ := List.mem_map.mp hm
      have hp' : (k, p.2) ∈ st.store := by
        rw [show (k, p.2) = p from Prod.ext hfst.symm rfl]
        exact hp
      have := mem_lookup (wellFormed_nodup hwf) hp'
      rw [this] at hlook
      simp at hlook
    rw [removeStore_of_not_mem hnm]
    simp [ncDelOne, hlook]
  · have hmem := lookup_mem hlook
    obtain ⟨⟨kv, hk1, hk2⟩, s, vv, hs1, hs2, hs3⟩ := wellFormed_mem hwf hmem
    refine ⟨[.del kv vv], ?_⟩
    have hdk : decodeTok (some k) = .ok kv := by
      show (match unstringify k with
        | some w => Except.ok w
        | none => .error ()) = .ok kv
      rw [show unstringify k = unstringify (k, e).1 from rfl, hk1]
    have hdt : decodeTok e.token = .ok vv := by
      rw [show e.token = (k, e).2.token from rfl, hs1]
      show (match unstringify s with
        | some w => Except.ok w
        | none => .error ()) = .ok vv
      rw [hs2]
    simp [ncDelOne, hlook, hdk, hdt]

theorem ncDelMany_spec :
    ∀ (ks : List (Option String)) (st : CacheState), wellFormed st = true →
      ∃ evs st', ncDelMany st ks = (st', .ok evs) ∧ wellFormed st' = true ∧
        st'.m_ttl = st.m_ttl ∧
        ∀ k', lookupStore k' st'.store =
          if k' ∈ ks.map keyString then none else lookupStore k' st.store := by
  intro ks
  induction ks with
  | nil =>
    intro st hwf
    exact ⟨[], st, rfl, hwf, rfl, fun k' => by simp⟩
  | cons k ks ih =>
    intro st hwf
    obtain ⟨evs1, hdel⟩ := ncDelOne_wf hwf (keyString k)
    have hwf1 : wellFormed { st with store := removeStore (keyString k) st.store } =
        true := wellFormed_remove hwf (keyString k)
    obtain ⟨evs2, st2, hmany, hwf2, httl, hlook⟩ := ih _ hwf1
    refine ⟨evs1 ++ evs2, st2, ?_, hwf2, httl, ?_⟩
    · unfold ncDelMany
      rw [hdel]
      simp only [hmany]
    · intro k'
      rw [hlook k', List.map_cons]
      by_cases h1 : k' ∈ ks.map keyString
      · simp [h1]
      · by_cases h2 : k' = keyString k
        · subst h2
          simp [h1]
          exact lookup_remove_self (wellFormed_nodup hwf)
        · simp [h1, h2]
          exact lookup_remove_other h2 st.store

theorem mapStringify_error_iff (keys : List JsVal) :
    mapStringify keys = .error () ↔ ∃ k ∈ keys, stringify k = .error () := by
  induction keys with
  | nil => simp [mapStringify]
  | cons k ks ih =>
    unfold mapStringify
    rcases hk : stringify k with e | s
    · rcases e
      simp [hk]
    · rcases hm : mapStringify ks with e | ss
      · rcases e
        rw [hm] at ih
        simp [hk, ih.mp rfl]
      · rw [hm] at ih
        simp [hk]
        intro x hx
        rcases hc : stringify x with e2 | s2
        · rcases e2
          exact absurd (ih.mpr ⟨x, hx, hc⟩) (by simp)
        · simp

/-- C2 amended: mdel encodes every key up front; if any key fails to
encode, the whole call throws the encoding error and removes none of
the keys, reporting nothing about which keys failed; when every key
encodes and the store is well-formed, the call succeeds and each
encoded key is removed independently, leaving every other key's entry
untouched (absent keys are no-ops). -/
theorem C2_mdel_amended (st : CacheState) (keys : List JsVal) :
    ((∃ k ∈ keys, stringify k = .error ()) →
      TTLCache.mdel st keys = (st, .error ())) ∧
    (∀ fetchKeys, mapStringify keys = .ok fetchKeys → wellFormed st = true →
      ∃ evs st', TTLCache.mdel st keys = (st', .ok evs) ∧
        st'.m_ttl = st.m_ttl ∧
        ∀ k', lookupStore k' st'.store =
          if k' ∈ fetchKeys.map keyString then none else lookupStore k' st.store) := by
  constructor
  · intro hfail
    unfold TTLCache.mdel
    rw [(mapStringify_error_iff keys).mpr hfail]
  · intro fetchKeys hok hwf
    obtain ⟨evs, st', hmany, -, httl, hlook⟩ := ncDelMany_spec fetchKeys st hwf
    refine ⟨evs, st', ?_, httl, hlook⟩
    unfold TTLCache.mdel
    rw [hok]
    simp only [hmany]

/-- C2 amended witness: a concrete encoding failure aborts the whole
mdel, and a concrete all-encoding mdel removes exactly the requested
keys. -/
theorem C2_mdel_amended_witness :
    TTLCache.mdel ⟨300, [(serStr (.str "a"), ⟨some (serStr (.int 1)), some 5⟩)]⟩
        [JsVal.bigint 0] =
      (⟨300, [(serStr (.str "a"), ⟨some (serStr (.int 1)), some 5⟩)]⟩, .error ()) ∧
      ∃ evs st',
        TTLCache.mdel ⟨300, [(serStr (.str "a"), ⟨some (serStr (.int 1)), some 5⟩)]⟩
            [JsVal.val (.str "a"), JsVal.val (.str "b")] =
          (st', .ok evs) ∧
          st'.m_ttl = 300 ∧
          ∀ k', lookupStore k' st'.store =
            if k' ∈ [some (serStr (.str "a")), some (serStr (.str "b"))].map keyString
            then none
            else lookupStore k'
              [(serStr (.str "a"), ⟨some (serStr (.int 1)), some 5⟩)] :=
  ⟨(C2_mdel_amended _ _).1 ⟨JsVal.bigint 0, by simp, rfl⟩,
    (C2_mdel_amended ⟨300, [(serStr (.str "a"), ⟨some (serStr (.int 1)), some 5⟩)]⟩
      [JsVal.val (.str "a"), JsVal.val (.str "b")]).2
      [some (serStr (.str "a")), some (serStr (.str "b"))] rfl (by decide)⟩

theorem mapStringify_vals (kvs : List Value) :
    mapStringify (kvs.map .val) = .ok (kvs.map fun k => some (serStr k)) := by
  induction kvs with
  | nil => rfl
  | cons k ks ih =>
    simp only [List.map_cons]
    unfold mapStringify
    rw [show stringify (.val k) = .ok (some (serStr k)) from rfl, ih]

theorem ncMGetAux_spec (st : CacheState) (now : Nat) :
    ∀ (ks : List String) (acc : List (String × Option String)),
      (∀ q ∈ acc, ncGet st now q.1 = some q.2) →
      ∀ p, p ∈ ncMGetAux st now ks acc ↔
        p ∈ acc ∨ (p.1 ∈ ks ∧ p.1 ∉ acc.map Prod.fst ∧ ncGet st now p.1 = some p.2) := by
  intro ks
  induction ks with
  | nil =>
    intro acc hacc p
    simp [ncMGetAux]
  | cons k ks ih =>
    intro acc hacc p
    unfold ncMGetAux
    by_cases hmem : (acc.map Prod.fst).contains k = true
    · rw [if_pos hmem, ih acc hacc p]
      have hkin : k ∈ acc.map Prod.fst := by simpa using hmem
      constructor
      · rintro (h | ⟨h1, h2, h3⟩)
        · exact Or.inl h
        · exact Or.inr ⟨by simp [h1], h2, h3⟩
      · rintro (h | ⟨h1, h2, h3⟩)
        · exact Or.inl h
        · by_cases hpk : p.1 = k
          · rw [hpk] at h2
            exact absurd hkin h2
          · rcases List.mem_cons.mp h1 with heq | h1'
            · exact absurd heq hpk
            · exact Or.inr ⟨h1', h2, h3⟩
    · rw [if_neg hmem]
      have hknotin : k ∉ acc.map Prod.fst := by
        intro hm
        exact hmem (by simpa using hm)
      rcases hg : ncGet st now k with _ | tok
      · rw [ih acc hacc p]
        constructor
        · rintro (h | ⟨h1, h2, h3⟩)
          · exact Or.inl h
          · exact Or.inr ⟨by simp [h1], h2, h3⟩
        · rintro (h | ⟨h1, h2, h3⟩)
          · exact Or.inl h
          · by_cases hpk : p.1 = k
            · rw [hpk] at h3
              rw [h3] at hg
              simp at hg
            · rcases List.mem_cons.mp h1 with heq | h1'
              · exact absurd heq hpk
              · exact Or.inr ⟨h1', h2, h3⟩
      · have hacc' : ∀ q ∈ acc ++ [(k, tok)], ncGet st now q.1 = some q.2 := by
          intro q hq
          rcases List.mem_append.mp hq with h | h
          · exact hacc q h
          · simp at h
            subst h
            exact hg
        rw [ih _ hacc' p]
        constructor
        · rintro (h | ⟨h1, h2, h3⟩)
          · rcases List.mem_append.mp h with h | h
            · exact Or.inl h
            · simp at h
              subst h
              exact Or.inr ⟨by simp, hknotin, hg⟩
          · refine Or.inr ⟨by simp [h1], fun hm => h2 (by simp [hm]), h3⟩
        · rintro (h | ⟨h1, h2, h3⟩)
          · exact Or.inl (List.mem_append_left _ h)
          · by_cases hpk : p.1 = k
            · have hp2 : p.2 = tok := by
                rw [hpk] at h3
                rw [h3] at hg
                exact Option.some.inj hg
              refine Or.inl (List.mem_append_right _ ?_)
              simp
              exact Prod.ext hpk hp2
            · rcases List.mem_cons.mp h1 with heq | h1'
              · exact absurd heq hpk
              · refine Or.inr ⟨h1', ?_, h3⟩
                intro hm
                rw [List.map_append] at hm
                rcases List.mem_append.mp hm with hm | hm
                · exact h2 hm
                · simp at hm
                  exact hpk hm

theorem ncMGet_mem (st : CacheState) (now : Nat) (ks : List String)
    (p : String × Option String) :
    p ∈ ncMGet st now ks ↔ p.1 ∈ ks ∧ ncGet st now p.1 = some p.2 := by
  unfold ncMGet
  rw [ncMGetAux_spec st now ks [] (by simp) p]
  simp

theorem buildPairs_spec :
    ∀ ps : List (String × Option String),
      (∀ q ∈ ps, tokenTruthy q.2 = true →
        (∃ kv, unstringify q.1 = some kv) ∧
          ∃ s vv, q.2 = some s ∧ unstringify s = some vv) →
      ∃ m, buildPairs ps = .ok m ∧
        ∀ kv vv, (kv, vv) ∈ m ↔
          ∃ q ∈ ps, tokenTruthy q.2 = true ∧ unstringify q.1 = some kv ∧
            ∃ s, q.2 = some s ∧ unstringify s = some vv := by
  intro ps
  induction ps with
  | nil =>
    intro _
    exact ⟨[], rfl, by simp⟩
  | cons q rest ih =>
    intro hdec
    obtain ⟨m', hm', hmem'⟩ := ih (fun r hr => hdec r (by simp [hr]))
    rcases q with ⟨k, tok⟩
    by_cases ht : tokenTruthy tok = true
    · obtain ⟨⟨kv0, hkv0⟩, s0, vv0, hs0, hvv0⟩ := hdec (k, tok) (by simp) ht
      have hd1 : decodeTok (some k) = .ok kv0 := by
        show (match unstringify k with
          | some w => Except.ok w
          | none => .error ()) = _
        rw [hkv0]
      have hd2 : decodeTok tok = .ok vv0 := by
        rw [show tok = (k, tok).2 from rfl, hs0]
        show (match unstringify s0 with
          | some w => Except.ok w
          | none => .error ()) = _
        rw [hvv0]
      refine ⟨(kv0, vv0) :: m', ?_, ?_⟩
      · simp [buildPairs, ht, hd1, hd2, hm']
      · intro kv vv
        simp only [List.mem_cons]
        constructor
        · rintro (heq | hmem)
          · obtain ⟨rfl, rfl⟩ := Prod.mk.inj heq
            exact ⟨(k, tok), by simp, ht, hkv0, s0, hs0, hvv0⟩
          · obtain ⟨q, hq, h1, h2, s, h3, h4⟩ := (hmem' kv vv).mp hmem
            exact ⟨q, by simp [hq], h1, h2, s, h3, h4⟩
        · rintro ⟨q, hq, h1, h2, s, h3, h4⟩
          rcases hq with rfl | hq'
          · left
            have h2' : unstringify k = some kv := h2
            have h3' : tok = some s := h3
            have hk : kv = kv0 := by
              rw [hkv0] at h2'
              exact (Option.some.inj h2').symm
            have hs0' : tok = some s0 := hs0
            have hs : s = s0 := by
              rw [h3'] at hs0'
              exact Option.some.inj hs0'
            have hv : vv = vv0 := by
              rw [hs, hvv0] at h4
              exact Option.some.inj h4.symm
            rw [hk, hv]
          · right
            exact (hmem' kv vv).mpr ⟨q, hq', h1, h2, s, h3, h4⟩
    · refine ⟨m', ?_, ?_⟩
      · simp [buildPairs, ht, hm']
      · intro kv vv
        rw [hmem' kv vv]
        constructor
        · rintro ⟨q, hq, h1, h2, s, h3, h4⟩
          exact ⟨q, by simp [hq], h1, h2, s, h3, h4⟩
        · rintro ⟨q, hq, h1, h2, s, h3, h4⟩
          rcases List.mem_cons.mp hq with rfl | hq'
          · exact absurd h1 ht
          · exact ⟨q, hq', h1, h2, s, h3, h4⟩

theorem mget_vals_spec (st : CacheState) (now : Nat) (kvs : List Value)
    (hwf : wellFormed st = true) :
    ∃ m, TTLCache.mget st now (kvs.map .val) = .ok m ∧
      ∀ k v, (k, v) ∈ m ↔
        k ∈ kvs ∧ ∃ e, lookupStore (serStr k) st.store = some e ∧
          e.isLive now = true ∧ e.token = some (serStr v) := by
  have hms : mapStringify (kvs.map .val) = .ok (kvs.map fun k => some (serStr k)) :=
    mapStringify_vals kvs
  have hkeys : (kvs.map fun k => some (serStr k)).map keyString = kvs.map serStr := by
    rw [List.map_map]
    rfl
  have hdec : ∀ q ∈ ncMGet st now (kvs.map serStr), tokenTruthy q.2 = true →
      (∃ kv, unstringify q.1 = some kv) ∧
        ∃ s vv, q.2 = some s ∧ unstringify s = some vv := by
    intro q hq htr
    obtain ⟨hk, hget⟩ := (ncMGet_mem st now _ q).mp hq
    obtain ⟨e, hlook, hlive, htok⟩ := ncGet_some_iff.mp hget
    obtain ⟨⟨kv, hkv, -⟩, s, vv, hs1, hs2, -⟩ := wellFormed_mem hwf (lookup_mem hlook)
    exact ⟨⟨kv, hkv⟩, s, vv, by rw [htok]; exact hs1, hs2⟩
  obtain ⟨m, hbp, hmem⟩ := buildPairs_spec (ncMGet st now (kvs.map serStr)) hdec
  refine ⟨m, ?_, ?_⟩
  · unfold TTLCache.mget
    rw [hms]
    simp only [hkeys, hbp]
  · intro k v
    rw [hmem k v]
    constructor
    · rintro ⟨q, hq, htr, hdk, s, hqs, hds⟩
      obtain ⟨hk1, hget⟩ := (ncMGet_mem _ _ _ q).mp hq
      obtain ⟨k0, hk0, hk0eq⟩ := List.mem_map.mp hk1
      have hkk : k = k0 := by
        rw [← hk0eq, unstringify_serStr] at hdk
        exact (Option.some.inj hdk).symm
      obtain ⟨e, hlook, hlive, htok⟩ := ncGet_some_iff.mp hget
      obtain ⟨-, s', vv', hs1, hs2, hs3⟩ := wellFormed_mem hwf (lookup_mem hlook)
      have hss : s' = s := by
        rw [htok] at hqs
        rw [hqs] at hs1
        exact (Option.some.inj hs1).symm
      have hvv : vv' = v := by
        rw [hss, hds] at hs2
        exact (Option.some.inj hs2).symm
      have hkmem : k ∈ kvs := by
        rw [hkk]
        exact hk0
      have hq1 : serStr k = q.1 := by
        rw [hkk]
        exact hk0eq
      have hlook' : lookupStore (serStr k) st.store = some e := by
        rw [hq1]
        exact hlook
      have htok' : e.token = some (serStr v) := by
        rw [show e.token = (q.1, e).2.token from rfl, hs1, ← hs3, hvv]
      exact ⟨hkmem, e, hlook', hlive, htok'⟩
    · rintro ⟨hk, e, hlook, hlive, htok⟩
      refine ⟨(serStr k, some (serStr v)), ?_, tokenTruthy_serStr v,
        unstringify_serStr k, serStr v, rfl, unstringify_serStr v⟩
      apply (ncMGet_mem _ _ _ _).mpr
      exact ⟨List.mem_map_of_mem serStr hk,
        ncGet_some_iff.mpr ⟨e, hlook, hlive, htok.symm⟩⟩

/-- C5: with every requested key of a supported shape and a well-formed
store, mget succeeds (a partial miss never fails) and returns exactly
the decoded key-value pairs of the requested keys whose entries are
present and unexpired with a stored value token; missing and expired
keys are silently omitted. -/
theorem C5_mget_partial_success (st : CacheState) (now : Nat) (kvs : List Value)
    (hwf : wellFormed st = true) :
    ∃ m, TTLCache.mget st now (kvs.map .val) = .ok m ∧
      ∀ k v, (k, v) ∈ m ↔
        k ∈ kvs ∧ ∃ e, lookupStore (serStr k) st.store = some e ∧
          e.isLive now = true ∧ e.token = some (serStr v) :=
  mget_vals_spec st now kvs hwf

/-- C5 witness: with k1 live and k2 absent, mget returns the mapping
holding only k1, and the general theorem applies to the same state. -/
theorem C5_witness :
    TTLCache.mget ⟨300, [(serStr (.str "k1"), ⟨some (serStr (.int 5)), some 100⟩)]⟩ 0
        ([Value.str "k1", Value.str "k2"].map .val) =
      .ok [(.str "k1", .int 5)] ∧
      ∃ m,
        TTLCache.mget ⟨300, [(serStr (.str "k1"), ⟨some (serStr (.int 5)), some 100⟩)]⟩
            0 ([Value.str "k1", Value.str "k2"].map .val) = .ok m ∧
          ∀ k v, (k, v) ∈ m ↔
            k ∈ [Value.str "k1", Value.str "k2"] ∧
              ∃ e, lookupStore (serStr k)
                  [(serStr (.str "k1"), ⟨some (serStr (.int 5)), some 100⟩)] = some e ∧
                e.isLive 0 = true ∧ e.token = some (serStr v) :=
  ⟨by rfl,
    C5_mget_partial_success
      ⟨300, [(serStr (.str "k1"), ⟨some (serStr (.int 5)), some 100⟩)]⟩ 0
      [Value.str "k1", Value.str "k2"] (by decide)⟩

theorem canonicalTok_of {s : String} {v : Value} (hu : unstringify s = some v)
    (hs : serStr v = s) : canonicalTok s = true := by
  unfold canonicalTok
  rw [hu]
  simp [hs]

theorem mapDecode_canonical :
    ∀ ss : List String, (∀ s ∈ ss, canonicalTok s = true) →
      ∃ vs, mapDecode ss = .ok vs ∧ vs.map serStr = ss := by
  intro ss
  induction ss with
  | nil =>
    intro _
    exact ⟨[], rfl, rfl⟩
  | cons s ss ih =>
    intro hc
    obtain ⟨v0, hu, hs⟩ := canonicalTok_spec (hc s (by simp))
    obtain ⟨vs, hvs, hmap⟩ := ih (fun x hx => hc x (by simp [hx]))
    refine ⟨v0 :: vs, ?_, by simp [hmap, hs]⟩
    unfold mapDecode
    rw [hu]
    simp only [hvs]

theorem mem_ncKeys_iff {st : CacheState} {now : Nat} (hwf : wellFormed st = true)
    {s : String} :
    s ∈ ncKeys st now ↔ ∃ e, lookupStore s st.store = some e ∧ e.isLive now = true := by
  unfold ncKeys
  constructor
  · intro hm
    obtain ⟨p, hp, hfst⟩ := List.mem_map.mp hm
    have hp' := List.mem_filter.mp hp
    refine ⟨p.2, ?_, by simpa using hp'.2⟩
    have : (s, p.2) = p := Prod.ext hfst.symm rfl
    rw [show (s : String) = (s, p.2).1 from rfl, this]
    exact mem_lookup (wellFormed_nodup hwf) (this ▸ hp'.1)
  · rintro ⟨e, hlook, hlive⟩
    refine List.mem_map.mpr ⟨(s, e), List.mem_filter.mpr ⟨lookup_mem hlook, ?_⟩, rfl⟩
    simpa using hlive

theorem ncKeys_canonical {st : CacheState} (hwf : wellFormed st = true) (now : Nat) :
    ∀ s ∈ ncKeys st now, canonicalTok s = true := by
  intro s hm
  obtain ⟨e, hlook, -⟩ := (mem_ncKeys_iff hwf).mp hm
  obtain ⟨⟨kv, hu, hs⟩, -⟩ := wellFormed_mem hwf (lookup_mem hlook)
  exact canonicalTok_of hu hs

/-- C6: on a well-formed store, keys() succeeds, list() literally equals
mget applied to the keys() result, and that result is a full snapshot:
it holds exactly the decoded key-value pairs of the entries present and
unexpired at call time. -/
theorem C6_list_snapshot (st : CacheState) (now : Nat) (hwf : wellFormed st = true) :
    ∃ ks, TTLCache.keys st now = .ok ks ∧
      TTLCache.list st now = TTLCache.mget st now (ks.map .val) ∧
      ∃ m, TTLCache.list st now = .ok m ∧
        ∀ k v, (k, v) ∈ m ↔
          ∃ e, lookupStore (serStr k) st.store = some e ∧ e.isLive now = true ∧
            e.token = some (serStr v) := by
  obtain ⟨ks, hks, hmapser⟩ :=
    mapDecode_canonical (ncKeys st now) (ncKeys_canonical hwf now)
  have hkeysOk : TTLCache.keys st now = .ok ks := hks
  have hlist : TTLCache.list st now = TTLCache.mget st now (ks.map .val) := by
    unfold TTLCache.list
    rw [show TTLCache.keys st now = .ok ks from hkeysOk]
  obtain ⟨m, hmget, hmem⟩ := mget_vals_spec st now ks hwf
  refine ⟨ks, hkeysOk, hlist, m, by rw [hlist]; exact hmget, ?_⟩
  intro k v
  rw [hmem k v]
  constructor
  · rintro ⟨-, e, hlook, hlive, htok⟩
    exact ⟨e, hlook, hlive, htok⟩
  · rintro ⟨e, hlook, hlive, htok⟩
    refine ⟨?_, e, hlook, hlive, htok⟩
    have hsk : serStr k ∈ ks.map serStr := by
      rw [hmapser]
      exact (mem_ncKeys_iff hwf).mpr ⟨e, hlook, hlive⟩
    obtain ⟨k', hk', heq⟩ := List.mem_map.mp hsk
    rw [serStr_inj heq] at hk'
    exact hk'

/-- C6 witness: the snapshot equivalence applied to a concrete two-entry
store with one live and one expired entry. -/
theorem C6_witness :
    ∃ ks,
      TTLCache.keys
          ⟨300, [(serStr (.str "a"), ⟨some (serStr (.int 1)), some 100⟩),
            (serStr (.str "b"), ⟨some (serStr (.int 2)), some 3⟩)]⟩ 50 = .ok ks ∧
        TTLCache.list
            ⟨300, [(serStr (.str "a"), ⟨some (serStr (.int 1)), some 100⟩),
              (serStr (.str "b"), ⟨some (serStr (.int 2)), some 3⟩)]⟩ 50 =
          TTLCache.mget
            ⟨300, [(serStr (.str "a"), ⟨some (serStr (.int 1)), some 100⟩),
              (serStr (.str "b"), ⟨some (serStr (.int 2)), some 3⟩)]⟩ 50
            (ks.map .val) ∧
        ∃ m,
          TTLCache.list
              ⟨300, [(serStr (.str "a"), ⟨some (serStr (.int 1)), some 100⟩),
                (serStr (.str "b"), ⟨some (serStr (.int 2)), some 3⟩)]⟩ 50 = .ok m ∧
            ∀ k v, (k, v) ∈ m ↔
              ∃ e, lookupStore (serStr k)
                  [(serStr (.str "a"), ⟨some (serStr (.int 1)), some 100⟩),
                    (serStr (.str "b"), ⟨some (serStr (.int 2)), some 3⟩)] = some e ∧
                e.isLive 50 = true ∧ e.token = some (serStr v) :=
  C6_list_snapshot
    ⟨300, [(serStr (.str "a"), ⟨some (serStr (.int 1)), some 100⟩),
      (serStr (.str "b"), ⟨some (serStr (.int 2)), some 3⟩)]⟩ 50 (by decide)

end Memcache
